import Mathlib

/-!
# Hazard-pointer registry (`hptr.h`)

A shallow embedding of the singly linked hazard-pointer list of `hptr.h`,
followed by theorems about it.  The functions are first given as whole calls
(every call runs to completion before the next one starts); the section on
threads then gives the same code one atomic access at a time, for a pool of
threads interleaved by an arbitrary schedule.

Memory model.  Nodes live in an arena `mem : List hp_t`.  A node pointer is a
natural number: `0` is `NULL`, and `p + 1` designates the node stored at index
`p` of the arena.  `calloc` either fails (returns `NULL`) or extends the arena
with one zero-initialised node and returns its address.  `uintptr_t` values are
modelled by `Nat`; the code performs no arithmetic on them, only equality
tests.  A function returns `none` when the C code would dereference an invalid
pointer or would not terminate (a loop runs out of its step budget).
-/

namespace HazardPointer

/-! ## Data model -/

/-- Node `hp_t`: `ptr` is the tracked address (`0` means free), `next` is the
address of the next node (`0` is `NULL`). -/
structure hp_t where
  ptr : Nat
  next : Nat
  deriving DecidableEq, Repr

/-- Machine state seen by the list functions: the node arena and the cell
`*head` that the parameter `hp_t **head` points to. -/
structure Registry where
  mem : List hp_t
  head : Nat
  deriving DecidableEq, Repr

/-- The registry before any node was created: `head = NULL`. -/
def empty : Registry := { mem := [], head := 0 }

/-! ## Memory accesses -/

/-- Read the node at address `p`; `none` for `NULL` or an unallocated address. -/
def deref (mem : List hp_t) (p : Nat) : Option hp_t :=
  if p = 0 then none else mem[p - 1]?

/-- Models `atomic_load(&node->ptr)`. -/
def atomic_load_ptr (mem : List hp_t) (node : Nat) : Option Nat :=
  (deref mem node).map hp_t.ptr

/-- Models `atomic_load(&node->next)`. -/
def atomic_load_next (mem : List hp_t) (node : Nat) : Option Nat :=
  (deref mem node).map hp_t.next

/-- Models the plain store `node->ptr = v`. -/
def store_ptr (mem : List hp_t) (node v : Nat) : Option (List hp_t) :=
  match deref mem node with
  | none => none
  | some n => some (mem.set (node - 1) { ptr := v, next := n.next })

/-- Models the plain store `node->next = v`. -/
def store_next (mem : List hp_t) (node v : Nat) : Option (List hp_t) :=
  match deref mem node with
  | none => none
  | some n => some (mem.set (node - 1) { ptr := n.ptr, next := v })

/-- Models `atomic_cas(&node->ptr, &expected, &desired)`: the slot is replaced by
`desired` exactly when it currently equals `expected`; the boolean is the
success flag.  (On failure the C primitive also refreshes the local
`expected`, which every caller discards.) -/
def atomic_cas_ptr (mem : List hp_t) (node expected desired : Nat) :
    Option (Bool × List hp_t) :=
  match deref mem node with
  | none => none
  | some n =>
    if n.ptr = expected then
      some (true, mem.set (node - 1) { ptr := desired, next := n.next })
    else some (false, mem)

/-- Models `atomic_cas(head, &old, &new)`: returns the success flag, the value
of the local `old` after the call (refreshed with the current head on failure)
and the resulting state. -/
def atomic_cas_head (s : Registry) (old new : Nat) : Bool × Nat × Registry :=
  if s.head = old then (true, old, { mem := s.mem, head := new })
  else (false, s.head, s)

/-- Models `calloc(1, sizeof(hp_t))`.  With `ok = false` the allocation fails
and `NULL` is returned; otherwise a zeroed node is added at a fresh address. -/
def calloc (mem : List hp_t) (ok : Bool) : Nat × List hp_t :=
  if ok then (mem.length + 1, mem ++ [{ ptr := 0, next := 0 }]) else (0, mem)

/-! ## The list functions -/

/-- The `do { new->next = old; } while (!atomic_cas(head, &old, &new))` loop of
`list_append`, with a step budget. -/
def append_loop (new : Nat) : Nat → Registry → Nat → Option Registry
  | 0, _, _ => none
  | fuel + 1, s, old =>
    match store_next s.mem new old with
    | none => none
    | some mem1 =>
      match atomic_cas_head { mem := mem1, head := s.head } old new with
      | (true, _, s1) => some s1
      | (false, old1, s1) => append_loop new fuel s1 old1

/-- Models `list_append(head, ptr)`; `calloc_ok` tells whether the allocation
succeeds.  The result is the returned node pointer (`0` for `NULL`) and the
state after the call.  Without interference the compare-and-swap on `head`
compares against the value just loaded, so one pass of the loop is enough
(see `append_loop_budget`). -/
def list_append (s : Registry) (ptr : Nat) (calloc_ok : Bool) :
    Option (Nat × Registry) :=
  match calloc s.mem calloc_ok with
  | (new, mem1) =>
    if new = 0 then some (0, { mem := mem1, head := s.head })
    else
      match store_ptr mem1 new ptr with
      | none => none
      | some mem2 =>
        let old := s.head
        (append_loop new 1 { mem := mem2, head := s.head } old).map
          (fun s1 => (new, s1))

/-- The `LIST_ITER` loop of `list_insert_or_append`, started at `node`.
The result is `(need_alloc, node, mem)` at loop exit. -/
def insert_iter (ptr : Nat) : Nat → List hp_t → Nat → Option (Bool × Nat × List hp_t)
  | 0, mem, node => if node = 0 then some (true, node, mem) else none
  | fuel + 1, mem, node =>
    if node = 0 then some (true, node, mem)
    else
      match atomic_load_ptr mem node with
      | none => none
      | some expected =>
        if expected = 0 then
          match atomic_cas_ptr mem node expected ptr with
          | none => none
          | some (true, mem1) => some (false, node, mem1)
          | some (false, mem1) =>
            match atomic_load_next mem1 node with
            | none => none
            | some nx => insert_iter ptr fuel mem1 nx
        else
          match atomic_load_next mem node with
          | none => none
          | some nx => insert_iter ptr fuel mem nx

/-- Models `list_insert_or_append(head, ptr)`.  The traversal budget is the
number of allocated nodes, which every traversal that terminates in C stays
within. -/
def list_insert_or_append (s : Registry) (ptr : Nat) (calloc_ok : Bool) :
    Option (Nat × Registry) :=
  match insert_iter ptr s.mem.length s.mem s.head with
  | none => none
  | some (need_alloc, node, mem1) =>
    if need_alloc then list_append { mem := mem1, head := s.head } ptr calloc_ok
    else some (node, { mem := mem1, head := s.head })

/-- The `LIST_ITER` loop of `list_remove`, started at `node`. -/
def remove_iter (ptr : Nat) : Nat → List hp_t → Nat → Option (Bool × List hp_t)
  | 0, mem, node => if node = 0 then some (false, mem) else none
  | fuel + 1, mem, node =>
    if node = 0 then some (false, mem)
    else
      match atomic_load_ptr mem node with
      | none => none
      | some expected =>
        if expected = ptr then
          match atomic_cas_ptr mem node expected 0 with
          | none => none
          | some (true, mem1) => some (true, mem1)
          | some (false, mem1) =>
            match atomic_load_next mem1 node with
            | none => none
            | some nx => remove_iter ptr fuel mem1 nx
        else
          match atomic_load_next mem node with
          | none => none
          | some nx => remove_iter ptr fuel mem nx

/-- Models `list_remove(head, ptr)`: the returned boolean and the state after
the call. -/
def list_remove (s : Registry) (ptr : Nat) : Option (Bool × Registry) :=
  (remove_iter ptr s.mem.length s.mem s.head).map
    (fun r => (r.1, { mem := r.2, head := s.head }))

/-- The `LIST_ITER` loop of `list_contains`, started at `node`. -/
def contains_iter (ptr : Nat) (mem : List hp_t) : Nat → Nat → Option Bool
  | 0, node => if node = 0 then some false else none
  | fuel + 1, node =>
    if node = 0 then some false
    else
      match atomic_load_ptr mem node with
      | none => none
      | some v =>
        if v = ptr then some true
        else
          match atomic_load_next mem node with
          | none => none
          | some nx => contains_iter ptr mem fuel nx

/-- Models `list_contains(head, ptr)`: the returned boolean and the state after
the call (the function performs loads only). -/
def list_contains (s : Registry) (ptr : Nat) : Option (Bool × Registry) :=
  (contains_iter ptr s.mem s.mem.length s.head).map (fun b => (b, s))

/-- The `while (cur)` loop of `list_free`, started at `cur`.  The list `freed`
holds the addresses already passed to `free`, in call order.  Reading
`cur->next` from a node that is unallocated or already released is a fault. -/
def free_loop (mem : List hp_t) : Nat → Nat → List Nat → Option (List Nat)
  | 0, cur, freed => if cur = 0 then some freed else none
  | fuel + 1, cur, freed =>
    if cur = 0 then some freed
    else if cur ∈ freed then none
    else
      match deref mem cur with
      | none => none
      | some n => free_loop mem fuel n.next (freed ++ [cur])

/-- Models `list_free(head)`: the addresses passed to `free`, in call order.
The loop releases pairwise distinct allocated nodes, so the number of
allocated nodes bounds its length. -/
def list_free (s : Registry) : Option (List Nat) :=
  free_loop s.mem s.mem.length s.head []

/-! ## Observations used to state the properties -/

/-- Addresses visited by `LIST_ITER` from `node`, in list order. -/
def walk (mem : List hp_t) : Nat → Nat → Option (List Nat)
  | 0, node => if node = 0 then some [] else none
  | fuel + 1, node =>
    if node = 0 then some []
    else
      match atomic_load_next mem node with
      | none => none
      | some nx => (walk mem fuel nx).map (fun l => node :: l)

/-- The node chain of the registry: the nodes reachable from `head`, in list
order.  It is `none` when the `next` links from `head` do not form a finite
chain of allocated nodes ending in `NULL`. -/
def nodes (s : Registry) : Option (List Nat) :=
  walk s.mem s.mem.length s.head

/-- Slot value of the node at address `p`. -/
def slot (s : Registry) (p : Nat) : Option Nat :=
  atomic_load_ptr s.mem p

/-- Next link of the node at address `p`. -/
def link (s : Registry) (p : Nat) : Option Nat :=
  atomic_load_next s.mem p

/-- Predicate `IsChain mem p l`: following `next` links from `p` visits exactly the
addresses `l` and then reaches `NULL`. -/
def IsChain (mem : List hp_t) : Nat → List Nat → Prop
  | p, [] => p = 0
  | p, q :: l => p ≠ 0 ∧ q = p ∧ ∃ nx, atomic_load_next mem p = some nx ∧ IsChain mem nx l

/-- The arena after the slot of node `q` has been overwritten with `v`
(unchanged when `q` is not an allocated node). -/
def setPtr (mem : List hp_t) (q v : Nat) : List hp_t :=
  match deref mem q with
  | none => mem
  | some n => mem.set (q - 1) { ptr := v, next := n.next }

/-- Test "the node at `q` holds `v`" used to describe the scans. -/
def holds (mem : List hp_t) (v : Nat) (q : Nat) : Bool :=
  atomic_load_ptr mem q == some v

/-- One call of the public interface, as issued by a client. -/
inductive Call where
  | insert (addr : Nat) (calloc_ok : Bool)
  | remove (addr : Nat)
  | contains (addr : Nat)
  deriving DecidableEq, Repr

/-- State after one whole call. -/
def exec (s : Registry) : Call → Option Registry
  | Call.insert addr ok => (list_insert_or_append s addr ok).map Prod.snd
  | Call.remove addr => (list_remove s addr).map Prod.snd
  | Call.contains addr => (list_contains s addr).map Prod.snd

/-- State after a sequence of whole calls, executed one after the other. -/
def run : Registry → List Call → Option Registry
  | s, [] => some s
  | s, c :: cs =>
    match exec s c with
    | none => none
    | some s1 => run s1 cs

/-- Addresses passed to the insert calls of a sequence, in call order. -/
def inserted : List Call → List Nat
  | [] => []
  | Call.insert a _ :: cs => a :: inserted cs
  | Call.remove _ :: cs => inserted cs
  | Call.contains _ :: cs => inserted cs

/-- Bookkeeping of the addresses "inserted and not yet removed": starting from
`acc`, an insert call adds its address and a remove call deletes its address. -/
def liveFrom (acc : List Nat) : List Call → List Nat
  | [] => acc
  | Call.insert a _ :: cs => liveFrom (a :: acc) cs
  | Call.remove a :: cs => liveFrom (acc.filter (fun x => x != a)) cs
  | Call.contains _ :: cs => liveFrom acc cs

/-- Addresses inserted and not yet removed after the whole sequence. -/
def live (cs : List Call) : List Nat := liveFrom [] cs

/-- Number of nodes of the chain whose slot is occupied (non-zero); it is `0`
when the registry has no node chain. -/
def occupied (s : Registry) : Nat :=
  match nodes s with
  | none => 0
  | some l => l.countP (fun p => !holds s.mem 0 p)

/-- Largest number of simultaneously occupied slots over the states that a
sequence of whole calls goes through, the starting state `s` included. -/
def peak : Registry → List Call → Option Nat
  | s, [] => some (occupied s)
  | s, c :: cs =>
    match exec s c with
    | none => none
    | some s1 => (peak s1 cs).map (fun m => max (occupied s) m)

/-- Invariant `Tracks s L`: the registry has a node chain, the non-zero addresses held by
its nodes are exactly the members of `L`, and no two nodes hold the same
non-zero address. -/
def Tracks (s : Registry) (L : List Nat) : Prop :=
  ∃ l, nodes s = some l ∧
    (∀ a, (a ≠ 0 ∧ ∃ p, p ∈ l ∧ slot s p = some a) ↔ a ∈ L) ∧
    (∀ p ∈ l, ∀ q ∈ l, ∀ a, a ≠ 0 → slot s p = some a → slot s q = some a → p = q)

/-! ## Threads: one step per atomic access -/

/-- Work given to one thread of a pool: one call of the interface. -/
inductive Job where
  | insert (addr : Nat)
  | remove (addr : Nat)
  | contains (addr : Nat)
  deriving DecidableEq, Repr

/-- Program point of a thread together with its local variables.  The `i_`
points follow `list_insert_or_append` and, from `i_alloc` on, the inlined
`list_append`; the `r_` points follow `list_remove`; the `c_` points follow
`list_contains`.  Between two consecutive points the thread performs at most
one access to shared memory. -/
inductive Thread where
  | i_start (ptr : Nat)
  | i_test (ptr node : Nat)
  | i_cas (ptr node expected : Nat)
  | i_next (ptr node : Nat)
  | i_alloc (ptr : Nat)
  | i_setptr (ptr new : Nat)
  | i_loadhead (ptr new : Nat)
  | i_link (ptr new old : Nat)
  | i_pub (ptr new old : Nat)
  | i_done (node : Nat)
  | r_start (ptr : Nat)
  | r_test (ptr node : Nat)
  | r_cas (ptr node expected : Nat)
  | r_next (ptr node : Nat)
  | r_done (result : Bool)
  | c_start (ptr : Nat)
  | c_test (ptr node : Nat)
  | c_next (ptr node : Nat)
  | c_done (result : Bool)
  deriving DecidableEq, Repr

/-- Thread about to execute the first statement of its call. -/
def spawn : Job → Thread
  | Job.insert a => Thread.i_start a
  | Job.remove a => Thread.r_start a
  | Job.contains a => Thread.c_start a

/-- Record of a successful compare-and-swap: `claim tid node` when thread `tid`
obtains `node` as the result of `list_insert_or_append` (its compare-and-swap on
the slot, or on `head` for a node it created, succeeded), `clear node` when a
compare-and-swap of `list_remove` on the slot of `node` succeeded. -/
inductive Event where
  | claim (tid node : Nat)
  | clear (node : Nat)
  deriving DecidableEq, Repr

/-- One step of thread `tid` from program point `t` on the shared state `s`:
the new shared state, the new program point and the event recorded, if any.
`calloc_ok` is the outcome of the allocation, used at `i_alloc` only.  A
finished thread stays where it is. -/
def tstep (s : Registry) (tid : Nat) (calloc_ok : Bool) :
    Thread → Option (Registry × Thread × Option Event)
  | Thread.i_start ptr => some (s, Thread.i_test ptr s.head, none)
  | Thread.i_test ptr node =>
    if node = 0 then some (s, Thread.i_alloc ptr, none)
    else
      match atomic_load_ptr s.mem node with
      | none => none
      | some expected =>
        if expected = 0 then some (s, Thread.i_cas ptr node expected, none)
        else some (s, Thread.i_next ptr node, none)
  | Thread.i_cas ptr node expected =>
    match atomic_cas_ptr s.mem node expected ptr with
    | none => none
    | some (true, mem1) =>
      some ({ mem := mem1, head := s.head }, Thread.i_done node, some (Event.claim tid node))
    | some (false, mem1) => some ({ mem := mem1, head := s.head }, Thread.i_next ptr node, none)
  | Thread.i_next ptr node =>
    match atomic_load_next s.mem node with
    | none => none
    | some nx => some (s, Thread.i_test ptr nx, none)
  | Thread.i_alloc ptr =>
    match calloc s.mem calloc_ok with
    | (new, mem1) =>
      if new = 0 then some ({ mem := mem1, head := s.head }, Thread.i_done 0, none)
      else some ({ mem := mem1, head := s.head }, Thread.i_setptr ptr new, none)
  | Thread.i_setptr ptr new =>
    match store_ptr s.mem new ptr with
    | none => none
    | some mem1 => some ({ mem := mem1, head := s.head }, Thread.i_loadhead ptr new, none)
  | Thread.i_loadhead ptr new => some (s, Thread.i_link ptr new s.head, none)
  | Thread.i_link ptr new old =>
    match store_next s.mem new old with
    | none => none
    | some mem1 => some ({ mem := mem1, head := s.head }, Thread.i_pub ptr new old, none)
  | Thread.i_pub ptr new old =>
    match atomic_cas_head s old new with
    | (true, _, s1) => some (s1, Thread.i_done new, some (Event.claim tid new))
    | (false, old1, s1) => some (s1, Thread.i_link ptr new old1, none)
  | Thread.i_done node => some (s, Thread.i_done node, none)
  | Thread.r_start ptr => some (s, Thread.r_test ptr s.head, none)
  | Thread.r_test ptr node =>
    if node = 0 then some (s, Thread.r_done false, none)
    else
      match atomic_load_ptr s.mem node with
      | none => none
      | some expected =>
        if expected = ptr then some (s, Thread.r_cas ptr node expected, none)
        else some (s, Thread.r_next ptr node, none)
  | Thread.r_cas ptr node expected =>
    match atomic_cas_ptr s.mem node expected 0 with
    | none => none
    | some (true, mem1) =>
      some ({ mem := mem1, head := s.head }, Thread.r_done true, some (Event.clear node))
    | some (false, mem1) => some ({ mem := mem1, head := s.head }, Thread.r_next ptr node, none)
  | Thread.r_next ptr node =>
    match atomic_load_next s.mem node with
    | none => none
    | some nx => some (s, Thread.r_test ptr nx, none)
  | Thread.r_done b => some (s, Thread.r_done b, none)
  | Thread.c_start ptr => some (s, Thread.c_test ptr s.head, none)
  | Thread.c_test ptr node =>
    if node = 0 then some (s, Thread.c_done false, none)
    else
      match atomic_load_ptr s.mem node with
      | none => none
      | some v =>
        if v = ptr then some (s, Thread.c_done true, none)
        else some (s, Thread.c_next ptr node, none)
  | Thread.c_next ptr node =>
    match atomic_load_next s.mem node with
    | none => none
    | some nx => some (s, Thread.c_test ptr nx, none)
  | Thread.c_done b => some (s, Thread.c_done b, none)

/-- Shared state, program points of the threads (the thread identifier is the
position in the list) and the record of successful compare-and-swaps, most
recent first. -/
structure Machine where
  reg : Registry
  threads : List Thread
  log : List Event
  deriving DecidableEq, Repr

/-- The scheduler lets thread `tid` take one step; an identifier outside the pool
changes nothing. -/
def sstep (σ : Machine) (tid : Nat) (calloc_ok : Bool) : Option Machine :=
  match σ.threads[tid]? with
  | none => some σ
  | some t =>
    match tstep σ.reg tid calloc_ok t with
    | none => none
    | some (reg1, t1, ev) =>
      some { reg := reg1, threads := σ.threads.set tid t1,
             log := match ev with
               | none => σ.log
               | some e => e :: σ.log }

/-- A schedule names, for each step, the thread that moves and the outcome of
the allocation it may perform. -/
def schedule : Machine → List (Nat × Bool) → Option Machine
  | σ, [] => some σ
  | σ, (tid, ok) :: sch =>
    match sstep σ tid ok with
    | none => none
    | some σ1 => schedule σ1 sch

/-- Initial system: every thread at the start of its call, empty record. -/
def boot (s : Registry) (tasks : List Job) : Machine :=
  { reg := s, threads := tasks.map spawn, log := [] }

theorem isChain_of_walk (mem : List hp_t) :
    ∀ (fuel p : Nat) (l : List Nat), walk mem fuel p = some l → IsChain mem p l := by
  intro fuel
  induction fuel with
  | zero =>
    intro p l h
    by_cases hp : p = 0
    · simp [walk, hp] at h; subst h; simp [IsChain, hp]
    · simp [walk, hp] at h
  | succ fuel ih =>
    intro p l h
    by_cases hp : p = 0
    · simp [walk, hp] at h; subst h; simp [IsChain, hp]
    · simp only [walk, hp, if_false] at h
      cases hnx : atomic_load_next mem p with
      | none => simp [hnx] at h
      | some nx =>
        simp only [hnx, Option.map_eq_some'] at h
        obtain ⟨l1, h1, rfl⟩ := h
        exact ⟨hp, rfl, nx, hnx, ih nx l1 h1⟩

theorem walk_of_isChain (mem : List hp_t) :
    ∀ (l : List Nat) (fuel p : Nat), IsChain mem p l → l.length ≤ fuel →
      walk mem fuel p = some l := by
  intro l
  induction l with
  | nil =>
    intro fuel p h _
    simp only [IsChain] at h
    cases fuel <;> simp [walk, h]
  | cons q l ih =>
    intro fuel p h hf
    obtain ⟨hp, rfl, nx, hnx, hc⟩ := h
    cases fuel with
    | zero => simp at hf
    | succ fuel =>
      have := ih fuel nx hc (by simpa using hf)
      simp [walk, hp, hnx, this]

theorem isChain_unique (mem : List hp_t) :
    ∀ (l1 l2 : List Nat) (p : Nat), IsChain mem p l1 → IsChain mem p l2 → l1 = l2 := by
  intro l1
  induction l1 with
  | nil =>
    intro l2 p h1 h2
    simp only [IsChain] at h1
    cases l2 with
    | nil => rfl
    | cons q l2 => exact absurd h1 h2.1
  | cons q l1 ih =>
    intro l2 p h1 h2
    obtain ⟨hp, rfl, nx, hnx, hc⟩ := h1
    cases l2 with
    | nil => exact absurd h2 hp
    | cons q2 l2 =>
      obtain ⟨_, rfl, nx2, hnx2, hc2⟩ := h2
      rw [hnx] at hnx2
      cases hnx2
      rw [ih l2 nx hc hc2]

theorem isChain_sub (mem : List hp_t) :
    ∀ (l : List Nat) (p q : Nat), IsChain mem p l → q ∈ l →
      ∃ l1, IsChain mem q l1 ∧ l1.length ≤ l.length := by
  intro l
  induction l with
  | nil => intro p q _ hq; simp at hq
  | cons a l ih =>
    intro p q h hq
    obtain ⟨hp, rfl, nx, hnx, hc⟩ := h
    rcases List.mem_cons.1 hq with rfl | hq
    · exact ⟨q :: l, ⟨hp, rfl, nx, hnx, hc⟩, le_refl _⟩
    · obtain ⟨l1, h1, h2⟩ := ih nx q hc hq
      exact ⟨l1, h1, by simp; omega⟩

theorem isChain_nodup (mem : List hp_t) :
    ∀ (l : List Nat) (p : Nat), IsChain mem p l → l.Nodup := by
  intro l
  induction l with
  | nil => intro p _; exact List.nodup_nil
  | cons a l ih =>
    intro p h
    have h0 := h
    obtain ⟨hp, rfl, nx, hnx, hc⟩ := h
    refine List.nodup_cons.2 ⟨?_, ih nx hc⟩
    intro hmem
    obtain ⟨l1, h1, h2⟩ := isChain_sub mem l nx a hc hmem
    have := isChain_unique mem _ _ a h1 h0
    subst this
    simp at h2

theorem isChain_mem_valid (mem : List hp_t) :
    ∀ (l : List Nat) (p q : Nat), IsChain mem p l → q ∈ l →
      q ≠ 0 ∧ ∃ n, deref mem q = some n := by
  intro l
  induction l with
  | nil => intro p q _ hq; simp at hq
  | cons a l ih =>
    intro p q h hq
    obtain ⟨hp, rfl, nx, hnx, hc⟩ := h
    rcases List.mem_cons.1 hq with rfl | hq
    · refine ⟨hp, ?_⟩
      simp only [atomic_load_next, Option.map_eq_some'] at hnx
      obtain ⟨n, hn, _⟩ := hnx
      exact ⟨n, hn⟩
    · exact ih nx q hc hq

theorem deref_bound {mem : List hp_t} {q : Nat} {n : hp_t} (h : deref mem q = some n) :
    q ≠ 0 ∧ q - 1 < mem.length := by
  unfold deref at h
  by_cases hq : q = 0
  · simp [hq] at h
  · simp only [hq, if_false] at h
    exact ⟨hq, (List.getElem?_eq_some_iff.1 h).1⟩

theorem isChain_length_le (mem : List hp_t) (l : List Nat) (p : Nat)
    (h : IsChain mem p l) : l.length ≤ mem.length := by
  have hnd := isChain_nodup mem l p h
  have hsub : l ⊆ List.range' 1 mem.length := by
    intro q hq
    obtain ⟨hq0, n, hn⟩ := isChain_mem_valid mem l p q h hq
    have := (deref_bound hn).2
    rw [List.mem_range'_1]
    omega
  have := (List.subperm_of_subset hnd hsub).length_le
  simpa using this

theorem nodes_eq_some_iff (s : Registry) (l : List Nat) :
    nodes s = some l ↔ IsChain s.mem s.head l := by
  constructor
  · exact isChain_of_walk s.mem _ _ l
  · intro h
    exact walk_of_isChain s.mem l _ _ h (isChain_length_le s.mem l _ h)

/-! ## Memory updates -/

theorem deref_set_self {mem : List hp_t} {q : Nat} {n : hp_t} (x : hp_t)
    (h : deref mem q = some n) : deref (mem.set (q - 1) x) q = some x := by
  obtain ⟨hq, hlt⟩ := deref_bound h
  simp [deref, hq, hlt]

theorem deref_set_ne (mem : List hp_t) {p q : Nat} (x : hp_t) (hq : q ≠ 0)
    (hpq : p ≠ q) : deref (mem.set (q - 1) x) p = deref mem p := by
  unfold deref
  by_cases hp : p = 0
  · simp [hp]
  · simp only [hp, if_false]
    apply List.getElem?_set_ne
    omega

theorem length_setPtr (mem : List hp_t) (q v : Nat) :
    (setPtr mem q v).length = mem.length := by
  unfold setPtr
  cases deref mem q <;> simp

theorem load_next_setPtr (mem : List hp_t) (q v p : Nat) :
    atomic_load_next (setPtr mem q v) p = atomic_load_next mem p := by
  unfold setPtr
  cases h : deref mem q with
  | none => rfl
  | some n =>
    by_cases hpq : p = q
    · subst hpq
      simp [atomic_load_next, deref_set_self _ h, h]
    · simp [atomic_load_next, deref_set_ne mem _ (deref_bound h).1 hpq]

theorem load_ptr_setPtr_ne (mem : List hp_t) (q v : Nat) {p : Nat} (hpq : p ≠ q) :
    atomic_load_ptr (setPtr mem q v) p = atomic_load_ptr mem p := by
  unfold setPtr
  cases h : deref mem q with
  | none => rfl
  | some n => simp [atomic_load_ptr, deref_set_ne mem _ (deref_bound h).1 hpq]

theorem load_ptr_setPtr_self {mem : List hp_t} {q : Nat} {n : hp_t} (v : Nat)
    (h : deref mem q = some n) : atomic_load_ptr (setPtr mem q v) q = some v := by
  simp [setPtr, h, atomic_load_ptr, deref_set_self _ h]

theorem isChain_mono {mem mem1 : List hp_t}
    (hm : ∀ p nx, atomic_load_next mem p = some nx → atomic_load_next mem1 p = some nx) :
    ∀ (l : List Nat) (p : Nat), IsChain mem p l → IsChain mem1 p l := by
  intro l
  induction l with
  | nil => intro p h; exact h
  | cons a l ih =>
    intro p h
    obtain ⟨hp, rfl, nx, hnx, hc⟩ := h
    exact ⟨hp, rfl, nx, hm _ _ hnx, ih nx hc⟩

theorem isChain_setPtr {mem : List hp_t} (q v : Nat) {l : List Nat} {p : Nat}
    (h : IsChain mem p l) : IsChain (setPtr mem q v) p l :=
  isChain_mono (fun p nx hp => by rw [load_next_setPtr]; exact hp) l p h

theorem deref_append_of_some {mem : List hp_t} (x : hp_t) {p : Nat} {n : hp_t}
    (h : deref mem p = some n) : deref (mem ++ [x]) p = some n := by
  obtain ⟨hp, hlt⟩ := deref_bound h
  unfold deref at h ⊢
  simp only [hp, if_false] at h ⊢
  rw [List.getElem?_append_left hlt]
  exact h

theorem deref_append_new (mem : List hp_t) (x : hp_t) :
    deref (mem ++ [x]) (mem.length + 1) = some x := by
  simp [deref]

theorem isChain_append {mem : List hp_t} (x : hp_t) {l : List Nat} {p : Nat}
    (h : IsChain mem p l) : IsChain (mem ++ [x]) p l := by
  refine isChain_mono ?_ l p h
  intro p nx hp
  simp only [atomic_load_next, Option.map_eq_some'] at hp ⊢
  obtain ⟨n, hn, hnx⟩ := hp
  exact ⟨n, deref_append_of_some x hn, hnx⟩

/-! ## The loops, in terms of the node chain -/

theorem cas_ptr_hit {mem : List hp_t} {q e : Nat} (d : Nat)
    (h : atomic_load_ptr mem q = some e) :
    atomic_cas_ptr mem q e d = some (true, setPtr mem q d) := by
  simp only [atomic_load_ptr, Option.map_eq_some'] at h
  obtain ⟨n, hn, rfl⟩ := h
  simp [atomic_cas_ptr, setPtr, hn]

theorem load_ptr_of_chain {mem : List hp_t} {p a : Nat} {l : List Nat}
    (h : IsChain mem p (a :: l)) : ∃ e, atomic_load_ptr mem p = some e := by
  obtain ⟨n, hn⟩ := (isChain_mem_valid mem _ p p h (by simp [h.2.1])).2
  exact ⟨n.ptr, by simp [atomic_load_ptr, hn]⟩

theorem insert_iter_eq (ptr : Nat) (mem : List hp_t) :
    ∀ (l : List Nat) (fuel p : Nat), IsChain mem p l → l.length ≤ fuel →
      insert_iter ptr fuel mem p =
        some (match l.find? (holds mem 0) with
          | some q => (false, q, setPtr mem q ptr)
          | none => (true, 0, mem)) := by
  intro l
  induction l with
  | nil =>
    intro fuel p h _
    simp only [IsChain] at h
    cases fuel <;> simp [insert_iter, h]
  | cons a l ih =>
    intro fuel p h hf
    obtain ⟨e, he⟩ := load_ptr_of_chain h
    obtain ⟨hp, rfl, nx, hnx, hc⟩ := h
    cases fuel with
    | zero => simp at hf
    | succ fuel =>
      have hrec := ih fuel nx hc (by simpa using hf)
      by_cases he0 : e = 0
      · subst he0
        simp [insert_iter, hp, he, cas_ptr_hit ptr he, holds]
      · simp [insert_iter, hp, he, he0, hnx, hrec, holds]

theorem remove_iter_eq (ptr : Nat) (mem : List hp_t) :
    ∀ (l : List Nat) (fuel p : Nat), IsChain mem p l → l.length ≤ fuel →
      remove_iter ptr fuel mem p =
        some (match l.find? (holds mem ptr) with
          | some q => (true, setPtr mem q 0)
          | none => (false, mem)) := by
  intro l
  induction l with
  | nil =>
    intro fuel p h _
    simp only [IsChain] at h
    cases fuel <;> simp [remove_iter, h]
  | cons a l ih =>
    intro fuel p h hf
    obtain ⟨e, he⟩ := load_ptr_of_chain h
    obtain ⟨hp, rfl, nx, hnx, hc⟩ := h
    cases fuel with
    | zero => simp at hf
    | succ fuel =>
      have hrec := ih fuel nx hc (by simpa using hf)
      by_cases he0 : e = ptr
      · subst he0
        simp [remove_iter, hp, he, cas_ptr_hit 0 he, holds]
      · simp [remove_iter, hp, he, he0, hnx, hrec, holds]

theorem contains_iter_eq (ptr : Nat) (mem : List hp_t) :
    ∀ (l : List Nat) (fuel p : Nat), IsChain mem p l → l.length ≤ fuel →
      contains_iter ptr mem fuel p = some (l.any (holds mem ptr)) := by
  intro l
  induction l with
  | nil =>
    intro fuel p h _
    simp only [IsChain] at h
    cases fuel <;> simp [contains_iter, h]
  | cons a l ih =>
    intro fuel p h hf
    obtain ⟨e, he⟩ := load_ptr_of_chain h
    obtain ⟨hp, rfl, nx, hnx, hc⟩ := h
    cases fuel with
    | zero => simp at hf
    | succ fuel =>
      have hrec := ih fuel nx hc (by simpa using hf)
      by_cases he0 : e = ptr
      · subst he0
        simp [contains_iter, hp, he, holds]
      · simp [contains_iter, hp, he, he0, hnx, hrec, holds]

/-- Whatever its budget (at least one pass), the publication loop of
`list_append` started with `old` equal to the current head links the new node
in front of the list in its first pass. -/
theorem append_loop_budget (new fuel : Nat) (s : Registry) (n : hp_t)
    (h : deref s.mem new = some n) :
    append_loop new (fuel + 1) s s.head =
      some { mem := s.mem.set (new - 1) { ptr := n.ptr, next := s.head }, head := new } := by
  simp [append_loop, store_next, h, atomic_cas_head]

theorem list_append_ok (s : Registry) (ptr : Nat) :
    list_append s ptr true =
      some (s.mem.length + 1,
        { mem := s.mem ++ [{ ptr := ptr, next := s.head }], head := s.mem.length + 1 }) := by
  have h1 : deref (s.mem ++ [({ ptr := 0, next := 0 } : hp_t)]) (s.mem.length + 1)
      = some { ptr := 0, next := 0 } := deref_append_new _ _
  have h2 : deref ((s.mem ++ [({ ptr := 0, next := 0 } : hp_t)]).set (s.mem.length + 1 - 1)
      { ptr := ptr, next := 0 }) (s.mem.length + 1) = some { ptr := ptr, next := 0 } :=
    deref_set_self _ h1
  simp only [list_append, calloc, if_true, store_ptr, h1, Nat.succ_ne_zero, if_false]
  rw [append_loop_budget _ 0 _ _ h2]
  simp

theorem list_append_fail (s : Registry) (ptr : Nat) :
    list_append s ptr false = some (0, s) := by
  simp [list_append, calloc]

/-! ## Effect of the three operations -/

theorem list_insert_or_append_eq (s : Registry) (ptr : Nat) (ok : Bool) (l : List Nat)
    (h : nodes s = some l) :
    list_insert_or_append s ptr ok =
      some (match l.find? (holds s.mem 0) with
        | some q => (q, { mem := setPtr s.mem q ptr, head := s.head })
        | none =>
          if ok then
            (s.mem.length + 1,
              { mem := s.mem ++ [{ ptr := ptr, next := s.head }], head := s.mem.length + 1 })
          else (0, s)) := by
  have hc := (nodes_eq_some_iff s l).1 h
  have hl := isChain_length_le _ _ _ hc
  unfold list_insert_or_append
  rw [insert_iter_eq ptr s.mem l _ _ hc hl]
  cases hf : l.find? (holds s.mem 0) with
  | some q => simp
  | none =>
    cases ok
    · simp [list_append_fail]
    · simp [list_append_ok]

theorem list_remove_eq (s : Registry) (ptr : Nat) (l : List Nat) (h : nodes s = some l) :
    list_remove s ptr =
      some (match l.find? (holds s.mem ptr) with
        | some q => (true, { mem := setPtr s.mem q 0, head := s.head })
        | none => (false, s)) := by
  have hc := (nodes_eq_some_iff s l).1 h
  have hl := isChain_length_le _ _ _ hc
  unfold list_remove
  rw [remove_iter_eq ptr s.mem l _ _ hc hl]
  cases hf : l.find? (holds s.mem ptr) <;> simp

theorem list_contains_eq (s : Registry) (ptr : Nat) (l : List Nat) (h : nodes s = some l) :
    list_contains s ptr = some (l.any (holds s.mem ptr), s) := by
  have hc := (nodes_eq_some_iff s l).1 h
  have hl := isChain_length_le _ _ _ hc
  unfold list_contains
  rw [contains_iter_eq ptr s.mem l _ _ hc hl]
  simp

theorem nodes_setPtr (s : Registry) (q v : Nat) (l : List Nat) (h : nodes s = some l) :
    nodes { mem := setPtr s.mem q v, head := s.head } = some l :=
  (nodes_eq_some_iff _ l).2 (isChain_setPtr q v ((nodes_eq_some_iff s l).1 h))

theorem nodes_push (s : Registry) (v : Nat) (l : List Nat) (h : nodes s = some l) :
    nodes { mem := s.mem ++ [{ ptr := v, next := s.head }], head := s.mem.length + 1 }
      = some ((s.mem.length + 1) :: l) := by
  rw [nodes_eq_some_iff]
  refine ⟨Nat.succ_ne_zero _, rfl, s.head, ?_, isChain_append _ ((nodes_eq_some_iff s l).1 h)⟩
  simp [atomic_load_next, deref_append_new]

theorem fresh_not_mem (s : Registry) (l : List Nat) (h : nodes s = some l) :
    s.mem.length + 1 ∉ l := by
  intro hm
  obtain ⟨_, n, hn⟩ := isChain_mem_valid _ _ _ _ ((nodes_eq_some_iff s l).1 h) hm
  have := (deref_bound hn).2
  omega

theorem slot_push_old (s : Registry) (x : hp_t) (hd : Nat) (l : List Nat)
    (h : nodes s = some l) {p : Nat} (hp : p ∈ l) :
    slot { mem := s.mem ++ [x], head := hd } p = slot s p := by
  obtain ⟨_, n, hn⟩ := isChain_mem_valid _ _ _ _ ((nodes_eq_some_iff s l).1 h) hp
  simp [slot, atomic_load_ptr, hn, deref_append_of_some x hn]

theorem link_push_old (s : Registry) (x : hp_t) (hd : Nat) (l : List Nat)
    (h : nodes s = some l) {p : Nat} (hp : p ∈ l) :
    link { mem := s.mem ++ [x], head := hd } p = link s p := by
  obtain ⟨_, n, hn⟩ := isChain_mem_valid _ _ _ _ ((nodes_eq_some_iff s l).1 h) hp
  simp [link, atomic_load_next, hn, deref_append_of_some x hn]

theorem slot_setPtr_self (s : Registry) (q v hd : Nat) (l : List Nat)
    (h : nodes s = some l) (hq : q ∈ l) :
    slot { mem := setPtr s.mem q v, head := hd } q = some v := by
  obtain ⟨_, n, hn⟩ := isChain_mem_valid _ _ _ _ ((nodes_eq_some_iff s l).1 h) hq
  exact load_ptr_setPtr_self v hn

theorem slot_setPtr_ne (s : Registry) (q v hd : Nat) {p : Nat} (hpq : p ≠ q) :
    slot { mem := setPtr s.mem q v, head := hd } p = slot s p :=
  load_ptr_setPtr_ne s.mem q v hpq

theorem holds_iff (s : Registry) (v p : Nat) : holds s.mem v p = true ↔ slot s p = some v := by
  simp [holds, slot]

theorem link_setPtr (s : Registry) (q v hd p : Nat) :
    link { mem := setPtr s.mem q v, head := hd } p = link s p :=
  load_next_setPtr s.mem q v p

theorem find_holds_none {s : Registry} {v : Nat} {l : List Nat}
    (h : l.find? (holds s.mem v) = none) : ∀ p ∈ l, slot s p ≠ some v := by
  intro p hp hs
  exact List.find?_eq_none.1 h p hp ((holds_iff s v p).2 hs)

/-- Effect of `list_insert_or_append` on a registry with node chain `l`: it
claims a free node of the chain, or links a fresh node in front, or fails. -/
theorem insert_cases (s : Registry) (addr : Nat) (ok : Bool) (l : List Nat)
    (h : nodes s = some l) :
    ∃ node s1, list_insert_or_append s addr ok = some (node, s1) ∧
      ((node ∈ l ∧ slot s node = some 0 ∧ nodes s1 = some l ∧ s1.head = s.head ∧
          s1.mem.length = s.mem.length ∧ slot s1 node = some addr ∧
          (∀ p, p ≠ node → slot s1 p = slot s p) ∧ (∀ p, link s1 p = link s p)) ∨
       ((∀ p ∈ l, slot s p ≠ some 0) ∧ ok = true ∧ node = s.mem.length + 1 ∧ node ∉ l ∧
          nodes s1 = some (node :: l) ∧ s1.head = node ∧
          s1.mem.length = s.mem.length + 1 ∧ slot s1 node = some addr ∧
          link s1 node = some s.head ∧
          (∀ p ∈ l, slot s1 p = slot s p ∧ link s1 p = link s p)) ∨
       ((∀ p ∈ l, slot s p ≠ some 0) ∧ ok = false ∧ node = 0 ∧ s1 = s)) := by
  have heq := list_insert_or_append_eq s addr ok l h
  cases hf : l.find? (holds s.mem 0) with
  | some q =>
    rw [hf] at heq
    have hq : q ∈ l := List.mem_of_find?_eq_some hf
    refine ⟨_, _, heq, Or.inl ⟨hq, (holds_iff s 0 q).1 (List.find?_some hf),
      nodes_setPtr s q addr l h, rfl, length_setPtr _ _ _,
      slot_setPtr_self s q addr _ l h hq, fun p hp => slot_setPtr_ne s q addr _ hp,
      fun p => link_setPtr s q addr _ p⟩⟩
  | none =>
    rw [hf] at heq
    cases ok with
    | false => exact ⟨_, _, heq, Or.inr (Or.inr ⟨find_holds_none hf, rfl, rfl, rfl⟩)⟩
    | true =>
      refine ⟨_, _, heq, Or.inr (Or.inl ⟨find_holds_none hf, rfl, rfl, fresh_not_mem s l h,
        nodes_push s addr l h, rfl, by simp, ?_, ?_, ?_⟩)⟩
      · simp [slot, atomic_load_ptr, deref_append_new]
      · simp [link, atomic_load_next, deref_append_new]
      · intro p hp
        exact ⟨slot_push_old s _ _ l h hp, link_push_old s _ _ l h hp⟩

/-- Effect of `list_remove` on a registry with node chain `l`: it clears the
first node holding `addr`, or changes nothing when no node holds it. -/
theorem remove_cases (s : Registry) (addr : Nat) (l : List Nat) (h : nodes s = some l) :
    ∃ b s1, list_remove s addr = some (b, s1) ∧
      ((b = true ∧ ∃ q, q ∈ l ∧ slot s q = some addr ∧ nodes s1 = some l ∧
          s1.head = s.head ∧ s1.mem.length = s.mem.length ∧ slot s1 q = some 0 ∧
          (∀ p, p ≠ q → slot s1 p = slot s p) ∧ (∀ p, link s1 p = link s p)) ∨
       (b = false ∧ (∀ p ∈ l, slot s p ≠ some addr) ∧ s1 = s)) := by
  have heq := list_remove_eq s addr l h
  cases hf : l.find? (holds s.mem addr) with
  | some q =>
    rw [hf] at heq
    have hq : q ∈ l := List.mem_of_find?_eq_some hf
    exact ⟨_, _, heq, Or.inl ⟨rfl, q, hq, (holds_iff s addr q).1 (List.find?_some hf),
      nodes_setPtr s q 0 l h, rfl, length_setPtr _ _ _,
      slot_setPtr_self s q 0 _ l h hq, fun p hp => slot_setPtr_ne s q 0 _ hp,
      fun p => link_setPtr s q 0 _ p⟩⟩
  | none =>
    rw [hf] at heq
    exact ⟨_, _, heq, Or.inr ⟨rfl, find_holds_none hf, rfl⟩⟩

/-- Result of `list_contains` on a registry with node chain `l`. -/
theorem contains_cases (s : Registry) (addr : Nat) (l : List Nat) (h : nodes s = some l) :
    ∃ b, list_contains s addr = some (b, s) ∧
      (b = true ↔ ∃ p, p ∈ l ∧ slot s p = some addr) := by
  refine ⟨_, list_contains_eq s addr l h, ?_⟩
  rw [List.any_eq_true]
  constructor
  · rintro ⟨p, hp, hh⟩
    exact ⟨p, hp, (holds_iff s addr p).1 hh⟩
  · rintro ⟨p, hp, hh⟩
    exact ⟨p, hp, (holds_iff s addr p).2 hh⟩

/-! ## Sequences of calls -/

theorem mem_inserted {cs : List Call} {a : Nat} {ok : Bool} (h : Call.insert a ok ∈ cs) :
    a ∈ inserted cs := by
  induction cs with
  | nil => simp at h
  | cons c cs ih =>
    rcases List.mem_cons.1 h with rfl | h1
    · simp [inserted]
    · have := ih h1
      cases c <;> simp [inserted, this]

theorem tracks_empty : Tracks empty [] := by
  refine ⟨[], by decide, ?_, ?_⟩
  · intro a
    simp
  · intro p hp
    simp at hp

theorem tracks_insert (s : Registry) (L : List Nat) (a : Nat) (ht : Tracks s L)
    (ha : a ≠ 0) (hL : a ∉ L) :
    ∃ s1, exec s (Call.insert a true) = some s1 ∧ Tracks s1 (a :: L) := by
  obtain ⟨l, hl, hiff, hinj⟩ := ht
  obtain ⟨node, s1, hins, hcase⟩ := insert_cases s a true l hl
  refine ⟨s1, by simp [exec, hins], ?_⟩
  rcases hcase with ⟨hn, hfree, hl1, _, _, hs, hoth, _⟩ |
    ⟨_, _, _, hfresh, hl1, _, _, hs, _, hold⟩ | ⟨_, hok, _, _⟩
  · refine ⟨l, hl1, ?_, ?_⟩
    · intro b
      constructor
      · rintro ⟨hb, p, hp, hsp⟩
        by_cases hpn : p = node
        · subst hpn
          rw [hs] at hsp
          cases hsp
          exact List.mem_cons_self _ _
        · rw [hoth p hpn] at hsp
          exact List.mem_cons_of_mem _ ((hiff b).1 ⟨hb, p, hp, hsp⟩)
      · intro hb
        rcases List.mem_cons.1 hb with rfl | hbL
        · exact ⟨ha, node, hn, hs⟩
        · obtain ⟨hb0, p, hp, hsp⟩ := (hiff b).2 hbL
          have hpn : p ≠ node := by
            rintro rfl
            rw [hfree] at hsp
            exact hb0 (Option.some.inj hsp).symm
          exact ⟨hb0, p, hp, by rw [hoth p hpn]; exact hsp⟩
    · intro p hp q hq b hb hsp hsq
      by_cases hpn : p = node
      · by_cases hqn : q = node
        · rw [hpn, hqn]
        · subst hpn
          rw [hs] at hsp
          cases hsp
          rw [hoth q hqn] at hsq
          exact absurd ((hiff a).1 ⟨ha, q, hq, hsq⟩) hL
      · by_cases hqn : q = node
        · subst hqn
          rw [hs] at hsq
          cases hsq
          rw [hoth p hpn] at hsp
          exact absurd ((hiff a).1 ⟨ha, p, hp, hsp⟩) hL
        · rw [hoth p hpn] at hsp
          rw [hoth q hqn] at hsq
          exact hinj p hp q hq b hb hsp hsq
  · refine ⟨node :: l, hl1, ?_, ?_⟩
    · intro b
      constructor
      · rintro ⟨hb, p, hp, hsp⟩
        rcases List.mem_cons.1 hp with rfl | hpl
        · rw [hs] at hsp
          cases hsp
          exact List.mem_cons_self _ _
        · rw [(hold p hpl).1] at hsp
          exact List.mem_cons_of_mem _ ((hiff b).1 ⟨hb, p, hpl, hsp⟩)
      · intro hb
        rcases List.mem_cons.1 hb with rfl | hbL
        · exact ⟨ha, node, List.mem_cons_self _ _, hs⟩
        · obtain ⟨hb0, p, hp, hsp⟩ := (hiff b).2 hbL
          exact ⟨hb0, p, List.mem_cons_of_mem _ hp, by rw [(hold p hp).1]; exact hsp⟩
    · intro p hp q hq b hb hsp hsq
      rcases List.mem_cons.1 hp with hpn | hpl
      · rcases List.mem_cons.1 hq with hqn | hql
        · rw [hpn, hqn]
        · subst hpn
          rw [hs] at hsp
          cases hsp
          rw [(hold q hql).1] at hsq
          exact absurd ((hiff a).1 ⟨ha, q, hql, hsq⟩) hL
      · rcases List.mem_cons.1 hq with hqn | hql
        · subst hqn
          rw [hs] at hsq
          cases hsq
          rw [(hold p hpl).1] at hsp
          exact absurd ((hiff a).1 ⟨ha, p, hpl, hsp⟩) hL
        · rw [(hold p hpl).1] at hsp
          rw [(hold q hql).1] at hsq
          exact hinj p hpl q hql b hb hsp hsq
  · cases hok

theorem tracks_remove (s : Registry) (L : List Nat) (a : Nat) (ht : Tracks s L) :
    ∃ s1, exec s (Call.remove a) = some s1 ∧ Tracks s1 (L.filter (fun x => x != a)) := by
  obtain ⟨l, hl, hiff, hinj⟩ := ht
  obtain ⟨b0, s1, hrem, hcase⟩ := remove_cases s a l hl
  refine ⟨s1, by simp [exec, hrem], ?_⟩
  rcases hcase with ⟨_, q, hq, hsq, hl1, _, _, hs1q, hoth, _⟩ | ⟨_, hno, hs1⟩
  · refine ⟨l, hl1, ?_, ?_⟩
    · intro b
      rw [List.mem_filter, bne_iff_ne]
      constructor
      · rintro ⟨hb, p, hp, hsp⟩
        have hpq : p ≠ q := by
          rintro rfl
          rw [hs1q] at hsp
          exact hb (Option.some.inj hsp).symm
        rw [hoth p hpq] at hsp
        refine ⟨(hiff b).1 ⟨hb, p, hp, hsp⟩, ?_⟩
        rintro rfl
        exact hpq (hinj p hp q hq b hb hsp hsq)
      · rintro ⟨hbL, hba⟩
        obtain ⟨hb0, p, hp, hsp⟩ := (hiff b).2 hbL
        have hpq : p ≠ q := by
          rintro rfl
          rw [hsq] at hsp
          exact hba (Option.some.inj hsp).symm
        exact ⟨hb0, p, hp, by rw [hoth p hpq]; exact hsp⟩
    · intro p hp r hr b hb hsp hsr
      have hpq : p ≠ q := by
        rintro rfl
        rw [hs1q] at hsp
        exact hb (Option.some.inj hsp).symm
      have hrq : r ≠ q := by
        rintro rfl
        rw [hs1q] at hsr
        exact hb (Option.some.inj hsr).symm
      rw [hoth p hpq] at hsp
      rw [hoth r hrq] at hsr
      exact hinj p hp r hr b hb hsp hsr
  · subst hs1
    refine ⟨l, hl, ?_, hinj⟩
    intro b
    rw [List.mem_filter, bne_iff_ne]
    constructor
    · rintro ⟨hb, p, hp, hsp⟩
      refine ⟨(hiff b).1 ⟨hb, p, hp, hsp⟩, ?_⟩
      rintro rfl
      exact hno p hp hsp
    · rintro ⟨hbL, _⟩
      exact (hiff b).2 hbL

theorem tracks_contains (s : Registry) (L : List Nat) (a : Nat) (ht : Tracks s L) :
    exec s (Call.contains a) = some s := by
  obtain ⟨l, hl, _, _⟩ := ht
  obtain ⟨b, hb, _⟩ := contains_cases s a l hl
  simp [exec, hb]

theorem tracks_run :
    ∀ (cs : List Call) (s : Registry) (L : List Nat), Tracks s L →
      (∀ a ok, Call.insert a ok ∈ cs → a ≠ 0 ∧ ok = true ∧ a ∉ L) →
      (inserted cs).Nodup →
      ∃ s1, run s cs = some s1 ∧ Tracks s1 (liveFrom L cs) := by
  intro cs
  induction cs with
  | nil =>
    intro s L ht _ _
    exact ⟨s, rfl, ht⟩
  | cons c cs ih =>
    intro s L ht hins hnd
    cases c with
    | insert a ok =>
      obtain ⟨ha, hok, haL⟩ := hins a ok (List.mem_cons_self _ _)
      subst hok
      obtain ⟨s1, hex, ht1⟩ := tracks_insert s L a ht ha haL
      simp only [inserted, List.nodup_cons] at hnd
      have hins1 : ∀ b ok, Call.insert b ok ∈ cs → b ≠ 0 ∧ ok = true ∧ b ∉ a :: L := by
        intro b ok hb
        obtain ⟨hb0, hbok, hbL⟩ := hins b ok (List.mem_cons_of_mem _ hb)
        refine ⟨hb0, hbok, ?_⟩
        intro hmem
        rcases List.mem_cons.1 hmem with rfl | hmem
        · exact hnd.1 (mem_inserted hb)
        · exact hbL hmem
      obtain ⟨s2, hrun, ht2⟩ := ih s1 (a :: L) ht1 hins1 hnd.2
      exact ⟨s2, by simp [run, hex, hrun], by simpa [liveFrom] using ht2⟩
    | remove a =>
      obtain ⟨s1, hex, ht1⟩ := tracks_remove s L a ht
      simp only [inserted] at hnd
      have hins1 : ∀ b ok, Call.insert b ok ∈ cs →
          b ≠ 0 ∧ ok = true ∧ b ∉ L.filter (fun x => x != a) := by
        intro b ok hb
        obtain ⟨hb0, hbok, hbL⟩ := hins b ok (List.mem_cons_of_mem _ hb)
        exact ⟨hb0, hbok, fun hmem => hbL (List.mem_filter.1 hmem).1⟩
      obtain ⟨s2, hrun, ht2⟩ := ih s1 _ ht1 hins1 hnd
      exact ⟨s2, by simp [run, hex, hrun], by simpa [liveFrom] using ht2⟩
    | contains a =>
      have hex := tracks_contains s L a ht
      simp only [inserted] at hnd
      have hins1 : ∀ b ok, Call.insert b ok ∈ cs → b ≠ 0 ∧ ok = true ∧ b ∉ L := by
        intro b ok hb
        exact hins b ok (List.mem_cons_of_mem _ hb)
      obtain ⟨s2, hrun, ht2⟩ := ih s L ht hins1 hnd
      exact ⟨s2, by simp [run, hex, hrun], by simpa [liveFrom] using ht2⟩

/-! ## Properties of the interface -/

/-- C1: on every registry whose `next` links form a chain from `head`, a call
`list_insert_or_append(head, addr)` whose allocation does not fail returns, and
the `list_contains(head, addr)` issued right after it returns true. -/
theorem insert_then_contains (s : Registry) (addr : Nat) (l : List Nat)
    (h : nodes s = some l) :
    ∃ node s1, list_insert_or_append s addr true = some (node, s1) ∧
      list_contains s1 addr = some (true, s1) := by
  obtain ⟨node, s1, hins, hcase⟩ := insert_cases s addr true l h
  refine ⟨node, s1, hins, ?_⟩
  rcases hcase with ⟨hn, _, hl1, _, _, hs, _, _⟩ | ⟨_, _, _, _, hl1, _, _, hs, _, _⟩ |
    ⟨_, hok, _, _⟩
  · obtain ⟨b, hb, hiff⟩ := contains_cases s1 addr l hl1
    have : b = true := hiff.2 ⟨node, hn, hs⟩
    rw [hb, this]
  · obtain ⟨b, hb, hiff⟩ := contains_cases s1 addr _ hl1
    have : b = true := hiff.2 ⟨node, List.mem_cons_self _ _, hs⟩
    rw [hb, this]
  · cases hok

/-- Instance of C1 on a one-node registry whose only slot is occupied. -/
theorem insert_then_contains_witness :
    nodes { mem := [{ ptr := 7, next := 0 }], head := 1 } = some [1] ∧
    ∃ node s1,
      list_insert_or_append { mem := [{ ptr := 7, next := 0 }], head := 1 } 9 true
        = some (node, s1) ∧
      list_contains s1 9 = some (true, s1) :=
  ⟨by decide, insert_then_contains _ 9 [1] (by decide)⟩

/-- C2 fails as stated: after two registrations of the address 4096 the
registry has two nodes holding it; `list_remove` clears the first one only and
the `list_contains` that follows still returns true. -/
theorem remove_then_contains_counterexample :
    run empty [Call.insert 4096 true, Call.insert 4096 true]
      = some { mem := [{ ptr := 4096, next := 0 }, { ptr := 4096, next := 1 }], head := 2 } ∧
    nodes { mem := [{ ptr := 4096, next := 0 }, { ptr := 4096, next := 1 }], head := 2 }
      = some [2, 1] ∧
    list_remove { mem := [{ ptr := 4096, next := 0 }, { ptr := 4096, next := 1 }], head := 2 }
        4096
      = some (true, { mem := [{ ptr := 4096, next := 0 }, { ptr := 0, next := 1 }], head := 2 }) ∧
    list_contains { mem := [{ ptr := 4096, next := 0 }, { ptr := 0, next := 1 }], head := 2 }
        4096
      = some (true, { mem := [{ ptr := 4096, next := 0 }, { ptr := 0, next := 1 }], head := 2 }) := by
  decide

/-- C2 (amended): on every registry whose `next` links form a chain, `list_remove(head, addr)`
followed at once by `list_contains(head, addr)` returns false exactly when no
node held `addr` before the removal, or `addr` is non-zero and was held by at
most one node. -/
theorem remove_then_contains (s : Registry) (addr : Nat) (l : List Nat)
    (h : nodes s = some l) :
    ∃ b s1 c, list_remove s addr = some (b, s1) ∧ list_contains s1 addr = some (c, s1) ∧
      (c = false ↔
        ((∀ p ∈ l, slot s p ≠ some addr) ∨
         (addr ≠ 0 ∧ ∀ p ∈ l, ∀ q ∈ l, slot s p = some addr → slot s q = some addr → p = q))) := by
  obtain ⟨b, s1, hrem, hcase⟩ := remove_cases s addr l h
  rcases hcase with ⟨_, q, hq, hsq, hl1, _, _, hs1q, hoth, _⟩ | ⟨_, hno, hs1⟩
  · obtain ⟨c, hc, hiff⟩ := contains_cases s1 addr l hl1
    refine ⟨b, s1, c, hrem, hc, ?_⟩
    rw [← Bool.not_eq_true, hiff]
    constructor
    · intro hnone
      right
      have key : ∀ p ∈ l, slot s p = some addr → p = q := by
        intro p hp hsp
        by_contra hpq
        exact hnone ⟨p, hp, by rw [hoth p hpq]; exact hsp⟩
      refine ⟨?_, ?_⟩
      · rintro rfl
        exact hnone ⟨q, hq, hs1q⟩
      · intro p hp r hr hsp hsr
        rw [key p hp hsp, key r hr hsr]
    · rintro (hno | ⟨hne, huniq⟩)
      · exact absurd hsq (hno q hq)
      · rintro ⟨p, hp, hsp⟩
        by_cases hpq : p = q
        · subst hpq
          rw [hs1q] at hsp
          exact hne (Option.some.inj hsp).symm
        · rw [hoth p hpq] at hsp
          exact hpq (huniq p hp q hq hsp hsq)
  · obtain ⟨c, hc, hiff⟩ := contains_cases s addr l h
    rw [hs1] at hrem
    refine ⟨b, s, c, hrem, hc, ?_⟩
    rw [← Bool.not_eq_true, hiff]
    constructor
    · intro _
      exact Or.inl hno
    · rintro _ ⟨p, hp, hsp⟩
      exact hno p hp hsp

/-- Instance of the amended C2 on a two-node registry. -/
theorem remove_then_contains_witness :
    nodes { mem := [{ ptr := 5, next := 0 }, { ptr := 6, next := 1 }], head := 2 }
      = some [2, 1] ∧
    ∃ b s1 c,
      list_remove { mem := [{ ptr := 5, next := 0 }, { ptr := 6, next := 1 }], head := 2 } 5
        = some (b, s1) ∧
      list_contains s1 5 = some (c, s1) ∧
      (c = false ↔
        ((∀ p ∈ [2, 1],
            slot { mem := [{ ptr := 5, next := 0 }, { ptr := 6, next := 1 }], head := 2 } p
              ≠ some 5) ∨
         (5 ≠ 0 ∧ ∀ p ∈ [2, 1], ∀ q ∈ [2, 1],
            slot { mem := [{ ptr := 5, next := 0 }, { ptr := 6, next := 1 }], head := 2 } p
              = some 5 →
            slot { mem := [{ ptr := 5, next := 0 }, { ptr := 6, next := 1 }], head := 2 } q
              = some 5 → p = q))) :=
  ⟨by decide, remove_then_contains _ 5 [2, 1] (by decide)⟩

/-- C3: if `list_remove(head, a)` returns true on a registry whose node chain is
`l`, the `list_insert_or_append(head, b)` that follows allocates nothing, whether
or not an allocation could succeed: it returns a node of `l`, the node chain is
still `l` and no node was added to memory. -/
theorem remove_then_insert_reuses (s s1 : Registry) (a b : Nat) (ok : Bool) (l : List Nat)
    (h : nodes s = some l) (hr : list_remove s a = some (true, s1)) :
    ∃ node s2, list_insert_or_append s1 b ok = some (node, s2) ∧ node ∈ l ∧
      nodes s2 = some l ∧ s2.mem.length = s.mem.length := by
  obtain ⟨b0, s0, hrem, hcase⟩ := remove_cases s a l h
  rw [hr] at hrem
  simp only [Option.some.injEq, Prod.mk.injEq] at hrem
  obtain ⟨rfl, rfl⟩ := hrem
  rcases hcase with ⟨_, q, hq, _, hl1, _, hlen1, hs1q, _, _⟩ | ⟨hb, _, _⟩
  · obtain ⟨node, s2, hins, hc2⟩ := insert_cases s1 b ok l hl1
    refine ⟨node, s2, hins, ?_⟩
    rcases hc2 with ⟨hn, _, hl2, _, hlen2, _, _, _⟩ | ⟨hfull, _⟩ | ⟨hfull, _⟩
    · exact ⟨hn, hl2, by rw [hlen2, hlen1]⟩
    · exact absurd hs1q (hfull q hq)
    · exact absurd hs1q (hfull q hq)
  · cases hb

/-- Instance of C3: removing 6 from a full two-node registry, then inserting 8
while allocation would fail. -/
theorem remove_then_insert_reuses_witness :
    nodes { mem := [{ ptr := 5, next := 0 }, { ptr := 6, next := 1 }], head := 2 }
      = some [2, 1] ∧
    list_remove { mem := [{ ptr := 5, next := 0 }, { ptr := 6, next := 1 }], head := 2 } 6
      = some (true, { mem := [{ ptr := 5, next := 0 }, { ptr := 0, next := 1 }], head := 2 }) ∧
    ∃ node s2,
      list_insert_or_append
        { mem := [{ ptr := 5, next := 0 }, { ptr := 0, next := 1 }], head := 2 } 8 false
        = some (node, s2) ∧
      node ∈ [2, 1] ∧ nodes s2 = some [2, 1] ∧
      s2.mem.length
        = (Registry.mk [{ ptr := 5, next := 0 }, { ptr := 6, next := 1 }] 2).mem.length :=
  ⟨by decide, by decide,
    remove_then_insert_reuses _ _ 6 8 false [2, 1] (by decide) (by decide)⟩

/-- C4: the concrete scenario, run from the empty registry.  Inserting 0x1000
returns a handle `H1` holding it (length 1); inserting 0x2000 returns a new
handle `H2` holding it (length 2); removing 0x1000 returns true and frees `H1`;
removing it again returns false; inserting 0x3000 returns `H1` again, now
holding 0x3000, with the length still 2; finally 0x2000 is found and 0x9999 is
not. -/
theorem concrete_scenario :
    ∃ H1 H2 s1 s2 s3 s5,
      list_insert_or_append empty 0x1000 true = some (H1, s1) ∧
      slot s1 H1 = some 0x1000 ∧ (nodes s1).map List.length = some 1 ∧
      list_insert_or_append s1 0x2000 true = some (H2, s2) ∧ H2 ≠ H1 ∧
      slot s2 H2 = some 0x2000 ∧ (nodes s2).map List.length = some 2 ∧
      list_remove s2 0x1000 = some (true, s3) ∧ slot s3 H1 = some 0 ∧
      list_remove s3 0x1000 = some (false, s3) ∧
      list_insert_or_append s3 0x3000 true = some (H1, s5) ∧
      slot s5 H1 = some 0x3000 ∧ (nodes s5).map List.length = some 2 ∧
      list_contains s5 0x2000 = some (true, s5) ∧
      list_contains s5 0x9999 = some (false, s5) :=
  ⟨1, 2,
    { mem := [{ ptr := 0x1000, next := 0 }], head := 1 },
    { mem := [{ ptr := 0x1000, next := 0 }, { ptr := 0x2000, next := 1 }], head := 2 },
    { mem := [{ ptr := 0, next := 0 }, { ptr := 0x2000, next := 1 }], head := 2 },
    { mem := [{ ptr := 0x3000, next := 0 }, { ptr := 0x2000, next := 1 }], head := 2 },
    by decide⟩

/-- C5: on every registry whose `next` links form a chain, `list_insert_or_append(head, addr)`
returns, and a result other than `NULL` is a node of the resulting chain whose
slot is `addr` (for every address, non-zero ones in particular, and whether or
not allocation can succeed). -/
theorem insert_result_reachable (s : Registry) (addr : Nat) (ok : Bool) (l : List Nat)
    (h : nodes s = some l) :
    ∃ node s1, list_insert_or_append s addr ok = some (node, s1) ∧
      (node ≠ 0 → ∃ l1, nodes s1 = some l1 ∧ node ∈ l1 ∧ slot s1 node = some addr) := by
  obtain ⟨node, s1, hins, hcase⟩ := insert_cases s addr ok l h
  refine ⟨node, s1, hins, fun hne => ?_⟩
  rcases hcase with ⟨hn, _, hl1, _, _, hs, _, _⟩ | ⟨_, _, _, _, hl1, _, _, hs, _, _⟩ |
    ⟨_, _, h0, _⟩
  · exact ⟨l, hl1, hn, hs⟩
  · exact ⟨node :: l, hl1, List.mem_cons_self _ _, hs⟩
  · exact absurd h0 hne

/-- Instance of C5: inserting 9 into a full one-node registry. -/
theorem insert_result_reachable_witness :
    nodes { mem := [{ ptr := 7, next := 0 }], head := 1 } = some [1] ∧
    ∃ node s1,
      list_insert_or_append { mem := [{ ptr := 7, next := 0 }], head := 1 } 9 true
        = some (node, s1) ∧
      (node ≠ 0 → ∃ l1, nodes s1 = some l1 ∧ node ∈ l1 ∧ slot s1 node = some 9) :=
  ⟨by decide, insert_result_reachable _ 9 true [1] (by decide)⟩

/-- C6: on every registry with node chain `l`, `list_remove(head, addr)` returns;
it returns true exactly when some node of `l` holds `addr`, and when it returns
false the state (arena and head) is unchanged. -/
theorem remove_returns_iff (s : Registry) (addr : Nat) (l : List Nat)
    (h : nodes s = some l) :
    ∃ b s1, list_remove s addr = some (b, s1) ∧
      (b = true ↔ ∃ p, p ∈ l ∧ slot s p = some addr) ∧
      (b = false → s1 = s) := by
  obtain ⟨b, s1, hrem, hcase⟩ := remove_cases s addr l h
  refine ⟨b, s1, hrem, ?_⟩
  rcases hcase with ⟨hb, q, hq, hsq, _⟩ | ⟨hb, hno, hs1⟩
  · subst hb
    exact ⟨⟨fun _ => ⟨q, hq, hsq⟩, fun _ => rfl⟩, fun hf => (by cases hf)⟩
  · subst hb
    refine ⟨⟨fun hf => (by cases hf), ?_⟩, fun _ => hs1⟩
    rintro ⟨p, hp, hsp⟩
    exact absurd hsp (hno p hp)

/-- Instance of C6: removing an address that no node holds. -/
theorem remove_returns_iff_witness :
    nodes { mem := [{ ptr := 7, next := 0 }], head := 1 } = some [1] ∧
    ∃ b s1,
      list_remove { mem := [{ ptr := 7, next := 0 }], head := 1 } 9 = some (b, s1) ∧
      (b = true ↔
        ∃ p, p ∈ [1] ∧ slot { mem := [{ ptr := 7, next := 0 }], head := 1 } p = some 9) ∧
      (b = false → s1 = { mem := [{ ptr := 7, next := 0 }], head := 1 }) :=
  ⟨by decide, remove_returns_iff _ 9 [1] (by decide)⟩

/-- C7: on every registry with node chain `l`, `list_contains(head, addr)`
returns; it returns true exactly when some node of `l` holds `addr`, and the
state after the call (head, arena, hence every link and slot) is the state
before it. -/
theorem contains_returns_iff (s : Registry) (addr : Nat) (l : List Nat)
    (h : nodes s = some l) :
    ∃ b s1, list_contains s addr = some (b, s1) ∧
      (b = true ↔ ∃ p, p ∈ l ∧ slot s p = some addr) ∧ s1 = s := by
  obtain ⟨b, hb, hiff⟩ := contains_cases s addr l h
  exact ⟨b, s, hb, hiff, rfl⟩

/-- Instance of C7: looking up the address held by the only node. -/
theorem contains_returns_iff_witness :
    nodes { mem := [{ ptr := 7, next := 0 }], head := 1 } = some [1] ∧
    ∃ b s1,
      list_contains { mem := [{ ptr := 7, next := 0 }], head := 1 } 7 = some (b, s1) ∧
      (b = true ↔
        ∃ p, p ∈ [1] ∧ slot { mem := [{ ptr := 7, next := 0 }], head := 1 } p = some 7) ∧
      s1 = { mem := [{ ptr := 7, next := 0 }], head := 1 } :=
  ⟨by decide, contains_returns_iff _ 7 [1] (by decide)⟩

/-- C8: on every registry with node chain `l`, `list_insert_or_append(head, addr)`
returns; it returns `NULL` exactly when no node of `l` has a free slot and the
allocation fails, and in that case the state is unchanged. -/
theorem insert_fails_iff (s : Registry) (addr : Nat) (ok : Bool) (l : List Nat)
    (h : nodes s = some l) :
    ∃ node s1, list_insert_or_append s addr ok = some (node, s1) ∧
      (node = 0 ↔ ((∀ p ∈ l, slot s p ≠ some 0) ∧ ok = false)) ∧
      (node = 0 → s1 = s) := by
  obtain ⟨node, s1, hins, hcase⟩ := insert_cases s addr ok l h
  refine ⟨node, s1, hins, ?_⟩
  rcases hcase with ⟨hn, hfree, _⟩ | ⟨_, hok, hnode, _⟩ | ⟨hfull, hok, h0, hs1⟩
  · have hne : node ≠ 0 :=
      (isChain_mem_valid _ _ _ _ ((nodes_eq_some_iff s l).1 h) hn).1
    exact ⟨⟨fun h0 => absurd h0 hne, fun hh => absurd hfree (hh.1 node hn)⟩,
      fun h0 => absurd h0 hne⟩
  · have hne : node ≠ 0 := by omega
    refine ⟨⟨fun h0 => absurd h0 hne, fun hh => ?_⟩, fun h0 => absurd h0 hne⟩
    rw [hok] at hh
    cases hh.2
  · exact ⟨⟨fun _ => ⟨hfull, hok⟩, fun _ => h0⟩, fun _ => hs1⟩

/-- Instance of C8: a full one-node registry and a failing allocation. -/
theorem insert_fails_iff_witness :
    nodes { mem := [{ ptr := 7, next := 0 }], head := 1 } = some [1] ∧
    ∃ node s1,
      list_insert_or_append { mem := [{ ptr := 7, next := 0 }], head := 1 } 9 false
        = some (node, s1) ∧
      (node = 0 ↔
        ((∀ p ∈ [1], slot { mem := [{ ptr := 7, next := 0 }], head := 1 } p ≠ some 0) ∧
          false = false)) ∧
      (node = 0 → s1 = { mem := [{ ptr := 7, next := 0 }], head := 1 }) :=
  ⟨by decide, insert_fails_iff _ 9 false [1] (by decide)⟩

/-- C9: the list only grows.  For every registry with node chain `l` and every
call (insert with or without a successful allocation, remove, contains), the
call returns, the node chain before the call is a suffix of the node chain
after it, every node of `l` is still in the chain with the same `next` link,
and the length does not decrease. -/
theorem list_only_grows (s : Registry) (c : Call) (l : List Nat) (h : nodes s = some l) :
    ∃ s1 l1, exec s c = some s1 ∧ nodes s1 = some l1 ∧ l <:+ l1 ∧
      (∀ p ∈ l, p ∈ l1 ∧ link s1 p = link s p) ∧ l.length ≤ l1.length := by
  cases c with
  | insert addr ok =>
    obtain ⟨node, s1, hins, hcase⟩ := insert_cases s addr ok l h
    rcases hcase with ⟨_, _, hl1, _, _, _, _, hlk⟩ | ⟨_, _, _, _, hl1, _, _, _, _, hold⟩ |
      ⟨_, _, _, hs1⟩
    · exact ⟨s1, l, by simp [exec, hins], hl1, List.suffix_refl l,
        fun p hp => ⟨hp, hlk p⟩, le_refl _⟩
    · exact ⟨s1, node :: l, by simp [exec, hins], hl1, List.suffix_cons node l,
        fun p hp => ⟨List.mem_cons_of_mem _ hp, (hold p hp).2⟩, by simp⟩
    · subst hs1
      exact ⟨s1, l, by simp [exec, hins], h, List.suffix_refl l,
        fun p hp => ⟨hp, rfl⟩, le_refl _⟩
  | remove addr =>
    obtain ⟨b, s1, hrem, hcase⟩ := remove_cases s addr l h
    rcases hcase with ⟨_, q, _, _, hl1, _, _, _, _, hlk⟩ | ⟨_, _, hs1⟩
    · exact ⟨s1, l, by simp [exec, hrem], hl1, List.suffix_refl l,
        fun p hp => ⟨hp, hlk p⟩, le_refl _⟩
    · subst hs1
      exact ⟨s1, l, by simp [exec, hrem], h, List.suffix_refl l,
        fun p hp => ⟨hp, rfl⟩, le_refl _⟩
  | contains addr =>
    obtain ⟨b, hb, _⟩ := contains_cases s addr l h
    exact ⟨s, l, by simp [exec, hb], h, List.suffix_refl l,
      fun p hp => ⟨hp, rfl⟩, le_refl _⟩

/-- Instance of C9: an insert that has to allocate, on a full one-node registry. -/
theorem list_only_grows_witness :
    nodes { mem := [{ ptr := 7, next := 0 }], head := 1 } = some [1] ∧
    ∃ s1 l1,
      exec { mem := [{ ptr := 7, next := 0 }], head := 1 } (Call.insert 9 true) = some s1 ∧
      nodes s1 = some l1 ∧ [1] <:+ l1 ∧
      (∀ p ∈ [1],
        p ∈ l1 ∧ link s1 p = link { mem := [{ ptr := 7, next := 0 }], head := 1 } p) ∧
      [1].length ≤ l1.length :=
  ⟨by decide, list_only_grows _ (Call.insert 9 true) [1] (by decide)⟩

/-- C10: for every sequence of whole calls run one after the other from the
empty registry, in which every insert has a non-zero address and a successful
allocation and no address is inserted twice, the run returns, the non-zero
values held by the nodes of the final chain are exactly the addresses inserted
and not yet removed, and each of these is held by exactly one node. -/
theorem final_slots_eq_live (cs : List Call)
    (hins : ∀ a ok, Call.insert a ok ∈ cs → a ≠ 0 ∧ ok = true)
    (hnd : (inserted cs).Nodup) :
    ∃ s l, run empty cs = some s ∧ nodes s = some l ∧
      (∀ a, (a ≠ 0 ∧ ∃ p, p ∈ l ∧ slot s p = some a) ↔ a ∈ live cs) ∧
      (∀ a ∈ live cs, ∃! p, p ∈ l ∧ slot s p = some a) := by
  obtain ⟨s, hrun, l, hl, hiff, hinj⟩ :=
    tracks_run cs empty [] tracks_empty
      (fun a ok h => ⟨(hins a ok h).1, (hins a ok h).2, List.not_mem_nil a⟩) hnd
  refine ⟨s, l, hrun, hl, hiff, ?_⟩
  intro a ha
  obtain ⟨ha0, p, hp, hsp⟩ := (hiff a).2 ha
  exact ⟨p, ⟨hp, hsp⟩, fun q hq => hinj q hq.1 p hp a ha0 hq.2 hsp⟩

/-- Instance of C10: two inserts, a removal of the first address, a third
insert. -/
theorem final_slots_eq_live_witness :
    (∀ a ok,
      Call.insert a ok ∈
        [Call.insert 5 true, Call.insert 6 true, Call.remove 5, Call.insert 7 true] →
      a ≠ 0 ∧ ok = true) ∧
    (inserted [Call.insert 5 true, Call.insert 6 true, Call.remove 5,
      Call.insert 7 true]).Nodup ∧
    ∃ s l,
      run empty [Call.insert 5 true, Call.insert 6 true, Call.remove 5, Call.insert 7 true]
        = some s ∧
      nodes s = some l ∧
      (∀ a, (a ≠ 0 ∧ ∃ p, p ∈ l ∧ slot s p = some a) ↔
        a ∈ live [Call.insert 5 true, Call.insert 6 true, Call.remove 5,
          Call.insert 7 true]) ∧
      (∀ a ∈ live [Call.insert 5 true, Call.insert 6 true, Call.remove 5,
          Call.insert 7 true],
        ∃! p, p ∈ l ∧ slot s p = some a) :=
  ⟨by simp, by decide, final_slots_eq_live _ (by simp) (by decide)⟩

/-! ## Further facts about memory updates -/

theorem set_same_of_getElem {α : Type} :
    ∀ (l : List α) (i : Nat) (x : α), l[i]? = some x → l.set i x = l := by
  intro l
  induction l with
  | nil => intro i x h; simp at h
  | cons a l ih =>
    intro i x h
    cases i with
    | zero =>
      simp only [List.getElem?_cons_zero, Option.some.injEq] at h
      simp [h]
    | succ i =>
      simp only [List.getElem?_cons_succ] at h
      simp [ih i x h]

theorem setPtr_same {mem : List hp_t} {q v : Nat} (h : atomic_load_ptr mem q = some v) :
    setPtr mem q v = mem := by
  simp only [atomic_load_ptr, Option.map_eq_some'] at h
  obtain ⟨n, hn, rfl⟩ := h
  have hq := (deref_bound hn).1
  simp only [setPtr, hn]
  apply set_same_of_getElem
  simpa [deref, hq] using hn

theorem setPtr_setPtr (mem : List hp_t) (q a b : Nat) :
    setPtr (setPtr mem q a) q b = setPtr mem q b := by
  cases h : deref mem q with
  | none => simp [setPtr, h]
  | some n =>
    have h1 : deref (mem.set (q - 1) { ptr := a, next := n.next }) q
        = some { ptr := a, next := n.next } := deref_set_self _ h
    simp [setPtr, h, h1]

theorem deref_append_other (mem : List hp_t) (x : hp_t) {p : Nat}
    (hp : p ≠ mem.length + 1) : deref (mem ++ [x]) p = deref mem p := by
  unfold deref
  by_cases h0 : p = 0
  · simp [h0]
  · simp only [h0, if_false]
    by_cases hlt : p - 1 < mem.length
    · exact List.getElem?_append_left hlt
    · have h1 : mem.length ≤ p - 1 := by omega
      have h2 : (mem ++ [x]).length ≤ p - 1 := by simp; omega
      rw [List.getElem?_eq_none h1, List.getElem?_eq_none h2]

theorem deref_fresh (mem : List hp_t) : deref mem (mem.length + 1) = none := by
  simp [deref]

theorem first_of_find {s : Registry} {v q : Nat} {l : List Nat}
    (h : l.find? (holds s.mem v) = some q) :
    ∃ l1 l2, l = l1 ++ q :: l2 ∧ (∀ p ∈ l1, slot s p ≠ some v) ∧ slot s q = some v := by
  obtain ⟨hq, l1, l2, hl, hbefore⟩ := List.find?_eq_some.1 h
  refine ⟨l1, l2, hl, ?_, (holds_iff s v q).1 hq⟩
  intro p hp hs
  have := hbefore p hp
  rw [(holds_iff s v p).2 hs] at this
  exact absurd this (by decide)

theorem find_holds_some {s : Registry} {v : Nat} {l : List Nat}
    (h : ∃ p, p ∈ l ∧ slot s p = some v) : ∃ q, l.find? (holds s.mem v) = some q := by
  obtain ⟨p, hp, hs⟩ := h
  cases hf : l.find? (holds s.mem v) with
  | some q => exact ⟨q, rfl⟩
  | none => exact absurd hs (find_holds_none hf p hp)

theorem free_loop_eq (mem : List hp_t) :
    ∀ (l : List Nat) (fuel p : Nat) (freed : List Nat), IsChain mem p l →
      (∀ q ∈ l, q ∉ freed) → l.length ≤ fuel →
      free_loop mem fuel p freed = some (freed ++ l) := by
  intro l
  induction l with
  | nil =>
    intro fuel p freed h _ _
    simp only [IsChain] at h
    cases fuel <;> simp [free_loop, h]
  | cons a l ih =>
    intro fuel p freed h hdisj hf
    have hnd := isChain_nodup mem _ p h
    obtain ⟨n, hn⟩ := (isChain_mem_valid mem _ p a h (List.mem_cons_self _ _)).2
    obtain ⟨hp, hap, nx, hnx, hc⟩ := h
    subst hap
    have hnxn : n.next = nx := by
      simp only [atomic_load_next, hn, Option.map_some', Option.some.injEq] at hnx
      exact hnx
    cases fuel with
    | zero => simp at hf
    | succ fuel =>
      have hpf : a ∉ freed := hdisj a (List.mem_cons_self _ _)
      have hdisj1 : ∀ q ∈ l, q ∉ freed ++ [a] := by
        intro q hq hmem
        rcases List.mem_append.1 hmem with hm | hm
        · exact hdisj q (List.mem_cons_of_mem _ hq) hm
        · have hqa : q = a := by simpa using hm
          subst hqa
          exact (List.nodup_cons.1 hnd).1 hq
      have hrec := ih fuel nx (freed ++ [a]) hc hdisj1 (by simpa using hf)
      simp [free_loop, hp, hpf, hn, hnxn, hrec]

/-! ## Whole runs: bookkeeping, length and occupancy -/

theorem liveFrom_append (pre post : List Call) :
    ∀ L : List Nat, liveFrom L (pre ++ post) = liveFrom (liveFrom L pre) post := by
  induction pre with
  | nil => intro L; rfl
  | cons c pre ih =>
    intro L
    cases c <;> simp [liveFrom, ih]

theorem inserted_append (pre post : List Call) :
    inserted (pre ++ post) = inserted pre ++ inserted post := by
  induction pre with
  | nil => rfl
  | cons c pre ih => cases c <;> simp [inserted, ih]

theorem not_mem_liveFrom (a : Nat) :
    ∀ (cs : List Call) (L : List Nat), a ∉ L → a ∉ inserted cs → a ∉ liveFrom L cs := by
  intro cs
  induction cs with
  | nil => intro L hL _; exact hL
  | cons c cs ih =>
    intro L hL hins
    cases c with
    | insert b ok =>
      simp only [inserted, List.mem_cons, not_or] at hins
      exact ih (b :: L) (by simp [hins.1, hL]) hins.2
    | remove b =>
      exact ih _ (fun hm => hL (List.mem_filter.1 hm).1) hins
    | contains b => exact ih L hL hins

theorem exists_insert_of_mem_inserted {cs : List Call} {a : Nat} (h : a ∈ inserted cs) :
    ∃ ok, Call.insert a ok ∈ cs := by
  induction cs with
  | nil => simp [inserted] at h
  | cons c cs ih =>
    cases c with
    | insert b ok =>
      simp only [inserted, List.mem_cons] at h
      rcases h with rfl | h
      · exact ⟨ok, List.mem_cons_self _ _⟩
      · obtain ⟨ok1, h1⟩ := ih h
        exact ⟨ok1, List.mem_cons_of_mem _ h1⟩
    | remove b =>
      obtain ⟨ok1, h1⟩ := ih h
      exact ⟨ok1, List.mem_cons_of_mem _ h1⟩
    | contains b =>
      obtain ⟨ok1, h1⟩ := ih h
      exact ⟨ok1, List.mem_cons_of_mem _ h1⟩

theorem not_live_of_removed_later {cs pre post : List Call} {a : Nat}
    (hnd : (inserted cs).Nodup) (hcs : cs = pre ++ Call.insert a true :: post)
    (hrem : Call.remove a ∈ post) : a ∉ live cs := by
  obtain ⟨p1, p2, hp⟩ := List.append_of_mem hrem
  subst hp
  subst hcs
  have hnot : a ∉ inserted p2 := by
    simp only [inserted_append, inserted, List.nodup_append, List.nodup_cons,
      List.mem_append, not_or] at hnd
    exact hnd.2.1.1.2
  have hsplit : pre ++ Call.insert a true :: (p1 ++ Call.remove a :: p2)
      = (pre ++ Call.insert a true :: p1) ++ Call.remove a :: p2 := by simp
  unfold live
  rw [hsplit, liveFrom_append]
  simp only [liveFrom]
  apply not_mem_liveFrom a p2 _ _ hnot
  simp [List.mem_filter]

theorem exec_cases (s : Registry) (c : Call) (l : List Nat) (h : nodes s = some l) :
    ∃ s1, exec s c = some s1 ∧
      (nodes s1 = some l ∨
        ((∃ a, c = Call.insert a true) ∧ (∀ p ∈ l, slot s p ≠ some 0) ∧
          nodes s1 = some ((s.mem.length + 1) :: l) ∧
          ∀ a, c = Call.insert a true → a ≠ 0 → ∀ p ∈ (s.mem.length + 1) :: l,
            slot s1 p ≠ some 0)) := by
  cases c with
  | insert addr ok =>
    obtain ⟨node, s1, hins, hcase⟩ := insert_cases s addr ok l h
    refine ⟨s1, by simp [exec, hins], ?_⟩
    rcases hcase with ⟨_, _, hl1, _⟩ | ⟨hfull, hok, hnode, _, hl1, _, _, hs, _, hold⟩ |
      ⟨_, _, _, hs1⟩
    · exact Or.inl hl1
    · subst hok
      subst hnode
      refine Or.inr ⟨⟨addr, rfl⟩, hfull, hl1, ?_⟩
      intro a hc ha p hp
      cases hc
      rcases List.mem_cons.1 hp with rfl | hpl
      · rw [hs]
        exact fun h0 => ha (Option.some.inj h0)
      · rw [(hold p hpl).1]
        exact hfull p hpl
    · subst hs1
      exact Or.inl h
  | remove addr =>
    obtain ⟨b, s1, hrem, hcase⟩ := remove_cases s addr l h
    refine ⟨s1, by simp [exec, hrem], Or.inl ?_⟩
    rcases hcase with ⟨_, q, _, _, hl1, _⟩ | ⟨_, _, hs1⟩
    · exact hl1
    · subst hs1
      exact h
  | contains addr =>
    obtain ⟨b, hb, _⟩ := contains_cases s addr l h
    exact ⟨s, by simp [exec, hb], Or.inl h⟩

theorem run_length_le :
    ∀ (cs : List Call) (s : Registry) (l : List Nat), nodes s = some l →
      ∃ s1 l1, run s cs = some s1 ∧ nodes s1 = some l1 ∧
        l1.length ≤ l.length + (inserted cs).length := by
  intro cs
  induction cs with
  | nil => intro s l h; exact ⟨s, l, rfl, h, by simp [inserted]⟩
  | cons c cs ih =>
    intro s l h
    obtain ⟨s1, hex, hcase⟩ := exec_cases s c l h
    rcases hcase with hl1 | ⟨⟨a, rfl⟩, _, hl1, _⟩
    · obtain ⟨s2, l2, hrun, hl2, hlen⟩ := ih s1 l hl1
      refine ⟨s2, l2, by simp [run, hex, hrun], hl2, ?_⟩
      cases c <;> simp only [inserted, List.length_cons] <;> omega
    · obtain ⟨s2, l2, hrun, hl2, hlen⟩ := ih s1 _ hl1
      refine ⟨s2, l2, by simp [run, hex, hrun], hl2, ?_⟩
      simp only [inserted, List.length_cons] at hlen ⊢
      omega

theorem occupied_le (s : Registry) (l : List Nat) (h : nodes s = some l) :
    occupied s ≤ l.length := by
  simp only [occupied, h]
  exact List.countP_le_length _

theorem occupied_full (s : Registry) (l : List Nat) (h : nodes s = some l)
    (hfull : ∀ p ∈ l, slot s p ≠ some 0) : occupied s = l.length := by
  simp only [occupied, h]
  rw [List.countP_eq_length]
  intro p hp
  have : holds s.mem 0 p ≠ true := fun hh => hfull p hp ((holds_iff s 0 p).1 hh)
  simpa using this

theorem peak_ge :
    ∀ (cs : List Call) (s : Registry) (m : Nat), peak s cs = some m → occupied s ≤ m := by
  intro cs s m h
  cases cs with
  | nil =>
    simp only [peak, Option.some.injEq] at h
    omega
  | cons c cs =>
    simp only [peak] at h
    cases hex : exec s c with
    | none => simp [hex] at h
    | some s1 =>
      simp only [hex, Option.map_eq_some'] at h
      obtain ⟨m1, _, rfl⟩ := h
      exact le_max_left _ _

theorem peak_run :
    ∀ (cs : List Call) (s : Registry) (l : List Nat), nodes s = some l →
      (∀ a ok, Call.insert a ok ∈ cs → a ≠ 0 ∧ ok = true) →
      ∃ s1 l1 m, run s cs = some s1 ∧ nodes s1 = some l1 ∧ peak s cs = some m ∧
        l1.length = max l.length m := by
  intro cs
  induction cs with
  | nil =>
    intro s l h _
    exact ⟨s, l, occupied s, rfl, h, rfl, (max_eq_left (occupied_le s l h)).symm⟩
  | cons c cs ih =>
    intro s l h hins
    have hins1 : ∀ a ok, Call.insert a ok ∈ cs → a ≠ 0 ∧ ok = true :=
      fun a ok hm => hins a ok (List.mem_cons_of_mem _ hm)
    have hocc := occupied_le s l h
    obtain ⟨s1, hex, hcase⟩ := exec_cases s c l h
    rcases hcase with hl1 | ⟨⟨a, rfl⟩, _, hl1, hnz⟩
    · obtain ⟨s2, l2, m, hrun, hl2, hpk, hlen⟩ := ih s1 l hl1 hins1
      refine ⟨s2, l2, max (occupied s) m, by simp [run, hex, hrun], hl2,
        by simp [peak, hex, hpk], ?_⟩
      rw [hlen]
      omega
    · obtain ⟨s2, l2, m, hrun, hl2, hpk, hlen⟩ := ih s1 _ hl1 hins1
      have ha := (hins a true (List.mem_cons_self _ _)).1
      have hfull1 := occupied_full s1 _ hl1 (hnz a rfl ha)
      have hge := peak_ge cs s1 m hpk
      refine ⟨s2, l2, max (occupied s) m, by simp [run, hex, hrun], hl2,
        by simp [peak, hex, hpk], ?_⟩
      rw [hlen]
      simp only [List.length_cons] at hfull1 ⊢
      omega

/-! ## Properties of the interface, continued -/

/-- C11 fails as stated: two threads, the first inserting and removing 5 before
the second inserts and removes 6.  Both addresses are absent at the end, but
the second insert reused the node freed by the first removal, so the list has
one node, not two. -/
theorem length_after_all_removed_counterexample :
    inserted [Call.insert 5 true, Call.remove 5, Call.insert 6 true, Call.remove 6]
      = [5, 6] ∧
    run empty [Call.insert 5 true, Call.remove 5, Call.insert 6 true, Call.remove 6]
      = some { mem := [{ ptr := 0, next := 0 }], head := 1 } ∧
    nodes { mem := [{ ptr := 0, next := 0 }], head := 1 } = some [1] ∧
    list_contains { mem := [{ ptr := 0, next := 0 }], head := 1 } 5
      = some (false, { mem := [{ ptr := 0, next := 0 }], head := 1 }) ∧
    list_contains { mem := [{ ptr := 0, next := 0 }], head := 1 } 6
      = some (false, { mem := [{ ptr := 0, next := 0 }], head := 1 }) ∧
    ([1] : List Nat).length ≠ [5, 6].length := by
  decide

/-- C11 (amended): for every sequence of whole calls run one after the other
from the empty registry, in which every insert has a non-zero address and a
successful allocation, no address is inserted twice and every inserted address
is removed by a later call, the run returns, `list_contains` then returns false
for every inserted address, and the list length is at most the number `N` of
inserts. -/
theorem all_removed_then_absent (cs : List Call)
    (hins : ∀ a ok, Call.insert a ok ∈ cs → a ≠ 0 ∧ ok = true)
    (hnd : (inserted cs).Nodup)
    (hrem : ∀ a ∈ inserted cs, ∃ pre post,
      cs = pre ++ Call.insert a true :: post ∧ Call.remove a ∈ post) :
    ∃ s l, run empty cs = some s ∧ nodes s = some l ∧
      (∀ a ∈ inserted cs, list_contains s a = some (false, s)) ∧
      l.length ≤ (inserted cs).length := by
  obtain ⟨s, hrun, l, hl, hiff, _⟩ :=
    tracks_run cs empty [] tracks_empty
      (fun a ok h => ⟨(hins a ok h).1, (hins a ok h).2, List.not_mem_nil a⟩) hnd
  obtain ⟨s1, l1, hrun1, hl1, hlen⟩ := run_length_le cs empty [] (by decide)
  rw [hrun] at hrun1
  cases hrun1
  rw [hl] at hl1
  cases hl1
  refine ⟨s, l, hrun, hl, ?_, by simpa using hlen⟩
  intro a ha
  obtain ⟨pre, post, hcs, hr⟩ := hrem a ha
  have hnl : a ∉ live cs := not_live_of_removed_later hnd hcs hr
  obtain ⟨ok, hmem⟩ := exists_insert_of_mem_inserted ha
  have ha0 := (hins a ok hmem).1
  obtain ⟨b, hb, hbiff⟩ := contains_cases s a l hl
  have hbf : b = false := by
    cases b with
    | false => rfl
    | true =>
      obtain ⟨p, hp, hs⟩ := hbiff.1 rfl
      exact absurd ((hiff a).1 ⟨ha0, p, hp, hs⟩) hnl
  rw [hb, hbf]

/-- Instance of the amended C11: two threads whose calls interleave. -/
theorem all_removed_then_absent_witness :
    (∀ a ok,
      Call.insert a ok ∈
        [Call.insert 5 true, Call.insert 6 true, Call.remove 5, Call.remove 6] →
      a ≠ 0 ∧ ok = true) ∧
    (inserted [Call.insert 5 true, Call.insert 6 true, Call.remove 5,
      Call.remove 6]).Nodup ∧
    (∀ a ∈ inserted [Call.insert 5 true, Call.insert 6 true, Call.remove 5, Call.remove 6],
      ∃ pre post,
        [Call.insert 5 true, Call.insert 6 true, Call.remove 5, Call.remove 6]
          = pre ++ Call.insert a true :: post ∧ Call.remove a ∈ post) ∧
    ∃ s l,
      run empty [Call.insert 5 true, Call.insert 6 true, Call.remove 5, Call.remove 6]
        = some s ∧
      nodes s = some l ∧
      (∀ a ∈ inserted [Call.insert 5 true, Call.insert 6 true, Call.remove 5, Call.remove 6],
        list_contains s a = some (false, s)) ∧
      l.length ≤
        (inserted [Call.insert 5 true, Call.insert 6 true, Call.remove 5,
          Call.remove 6]).length :=
  have hr : ∀ a ∈ inserted [Call.insert 5 true, Call.insert 6 true, Call.remove 5,
      Call.remove 6],
      ∃ pre post,
        [Call.insert 5 true, Call.insert 6 true, Call.remove 5, Call.remove 6]
          = pre ++ Call.insert a true :: post ∧ Call.remove a ∈ post := by
    intro a ha
    simp only [inserted, List.mem_cons, List.mem_singleton, List.not_mem_nil, or_false] at ha
    rcases ha with rfl | rfl
    · exact ⟨[], [Call.insert 6 true, Call.remove 5, Call.remove 6], rfl, by simp⟩
    · exact ⟨[Call.insert 5 true], [Call.remove 5, Call.remove 6], rfl, by simp⟩
  ⟨by simp, by decide, hr, all_removed_then_absent _ (by simp) (by decide) hr⟩

/-- C13: on every registry whose node chain `l` has a node with slot 0,
`list_insert_or_append(head, addr)` returns the first node of `l` (in list
order from `head`) whose slot is 0, stores `addr` in that slot, and leaves
`head`, the node chain, every `next` link and every other slot unchanged; no
node is allocated.  This holds for every address (non-zero ones in particular)
and whether or not an allocation could succeed. -/
theorem insert_claims_first_free (s : Registry) (addr : Nat) (ok : Bool) (l : List Nat)
    (h : nodes s = some l) (hfree : ∃ p, p ∈ l ∧ slot s p = some 0) :
    ∃ q s1 l1 l2, list_insert_or_append s addr ok = some (q, s1) ∧
      l = l1 ++ q :: l2 ∧ (∀ p ∈ l1, slot s p ≠ some 0) ∧ slot s q = some 0 ∧
      slot s1 q = some addr ∧ (∀ p, p ≠ q → slot s1 p = slot s p) ∧
      s1.head = s.head ∧ nodes s1 = some l ∧ (∀ p, link s1 p = link s p) ∧
      s1.mem.length = s.mem.length := by
  have heq := list_insert_or_append_eq s addr ok l h
  obtain ⟨q, hf⟩ := find_holds_some hfree
  rw [hf] at heq
  obtain ⟨l1, l2, hl, hbefore, hq0⟩ := first_of_find hf
  have hq : q ∈ l := List.mem_of_find?_eq_some hf
  exact ⟨q, _, l1, l2, heq, hl, hbefore, hq0, slot_setPtr_self s q addr _ l h hq,
    fun p hp => slot_setPtr_ne s q addr _ hp, rfl, nodes_setPtr s q addr l h,
    fun p => link_setPtr s q addr _ p, length_setPtr _ _ _⟩

/-- Instance of C13: three nodes, the two nearest to the tail free. -/
theorem insert_claims_first_free_witness :
    nodes { mem := [{ ptr := 0, next := 0 }, { ptr := 0, next := 1 }, { ptr := 7, next := 2 }],
            head := 3 } = some [3, 2, 1] ∧
    (∃ p, p ∈ [3, 2, 1] ∧
      slot { mem := [{ ptr := 0, next := 0 }, { ptr := 0, next := 1 }, { ptr := 7, next := 2 }],
             head := 3 } p = some 0) ∧
    ∃ q s1 l1 l2,
      list_insert_or_append
        { mem := [{ ptr := 0, next := 0 }, { ptr := 0, next := 1 }, { ptr := 7, next := 2 }],
          head := 3 } 9 true = some (q, s1) ∧
      [3, 2, 1] = l1 ++ q :: l2 ∧
      (∀ p ∈ l1,
        slot { mem := [{ ptr := 0, next := 0 }, { ptr := 0, next := 1 }, { ptr := 7, next := 2 }],
               head := 3 } p ≠ some 0) ∧
      slot { mem := [{ ptr := 0, next := 0 }, { ptr := 0, next := 1 }, { ptr := 7, next := 2 }],
             head := 3 } q = some 0 ∧
      slot s1 q = some 9 ∧
      (∀ p, p ≠ q →
        slot s1 p =
          slot { mem := [{ ptr := 0, next := 0 }, { ptr := 0, next := 1 },
                         { ptr := 7, next := 2 }], head := 3 } p) ∧
      s1.head = 3 ∧ nodes s1 = some [3, 2, 1] ∧
      (∀ p,
        link s1 p =
          link { mem := [{ ptr := 0, next := 0 }, { ptr := 0, next := 1 },
                         { ptr := 7, next := 2 }], head := 3 } p) ∧
      s1.mem.length = 3 :=
  ⟨by decide, ⟨2, by decide, by decide⟩,
    insert_claims_first_free _ 9 true [3, 2, 1] (by decide) ⟨2, by decide, by decide⟩⟩

/-- C14: on every registry whose node chain `l` has no node with slot 0 (the
empty registry included), `list_insert_or_append(head, addr)` with a
successful allocation returns a node that was not allocated before, makes it
the new head, with slot `addr` and `next` link equal to the previous head; the
node chain becomes that node followed by `l` (one node longer), and every other
node keeps its slot and its `next` link. -/
theorem insert_appends_when_full (s : Registry) (addr : Nat) (l : List Nat)
    (h : nodes s = some l) (hfull : ∀ p ∈ l, slot s p ≠ some 0) :
    ∃ node s1, list_insert_or_append s addr true = some (node, s1) ∧
      node ≠ 0 ∧ deref s.mem node = none ∧ node ∉ l ∧
      s1.head = node ∧ slot s1 node = some addr ∧ link s1 node = some s.head ∧
      nodes s1 = some (node :: l) ∧ (node :: l).length = l.length + 1 ∧
      (∀ p, p ≠ node → slot s1 p = slot s p ∧ link s1 p = link s p) := by
  have heq := list_insert_or_append_eq s addr true l h
  have hf : l.find? (holds s.mem 0) = none := by
    cases hf : l.find? (holds s.mem 0) with
    | none => rfl
    | some q =>
      exact absurd ((holds_iff s 0 q).1 (List.find?_some hf))
        (hfull q (List.mem_of_find?_eq_some hf))
  rw [hf] at heq
  refine ⟨_, _, heq, Nat.succ_ne_zero _, deref_fresh _, fresh_not_mem s l h, rfl, ?_, ?_,
    nodes_push s addr l h, by simp, ?_⟩
  · simp [slot, atomic_load_ptr, deref_append_new]
  · simp [link, atomic_load_next, deref_append_new]
  · intro p hp
    simp [slot, link, atomic_load_ptr, atomic_load_next, deref_append_other _ _ hp]

/-- Instance of C14: a full two-node registry. -/
theorem insert_appends_when_full_witness :
    nodes { mem := [{ ptr := 5, next := 0 }, { ptr := 6, next := 1 }], head := 2 }
      = some [2, 1] ∧
    (∀ p ∈ [2, 1],
      slot { mem := [{ ptr := 5, next := 0 }, { ptr := 6, next := 1 }], head := 2 } p
        ≠ some 0) ∧
    ∃ node s1,
      list_insert_or_append
        { mem := [{ ptr := 5, next := 0 }, { ptr := 6, next := 1 }], head := 2 } 9 true
        = some (node, s1) ∧
      node ≠ 0 ∧
      deref [{ ptr := 5, next := 0 }, { ptr := 6, next := 1 }] node = none ∧
      node ∉ [2, 1] ∧ s1.head = node ∧ slot s1 node = some 9 ∧
      link s1 node = some 2 ∧ nodes s1 = some (node :: [2, 1]) ∧
      (node :: [2, 1]).length = [2, 1].length + 1 ∧
      (∀ p, p ≠ node →
        slot s1 p
          = slot { mem := [{ ptr := 5, next := 0 }, { ptr := 6, next := 1 }], head := 2 } p ∧
        link s1 p
          = link { mem := [{ ptr := 5, next := 0 }, { ptr := 6, next := 1 }], head := 2 } p) :=
  ⟨by decide, by decide, insert_appends_when_full _ 9 [2, 1] (by decide) (by decide)⟩

/-- C15: on every registry whose node chain `l` has a node holding `addr`,
`list_remove(head, addr)` returns true, sets to 0 the slot of the first node of
`l` (in list order from `head`) that holds `addr`, and changes nothing else:
every other slot (later nodes holding `addr` included), `head`, the node chain
and every `next` link are unchanged.  This holds for every address, non-zero
ones in particular. -/
theorem remove_clears_first_holder (s : Registry) (addr : Nat) (l : List Nat)
    (h : nodes s = some l) (hheld : ∃ p, p ∈ l ∧ slot s p = some addr) :
    ∃ q s1 l1 l2, list_remove s addr = some (true, s1) ∧
      l = l1 ++ q :: l2 ∧ (∀ p ∈ l1, slot s p ≠ some addr) ∧ slot s q = some addr ∧
      slot s1 q = some 0 ∧ (∀ p, p ≠ q → slot s1 p = slot s p) ∧
      s1.head = s.head ∧ nodes s1 = some l ∧ (∀ p, link s1 p = link s p) ∧
      s1.mem.length = s.mem.length := by
  have heq := list_remove_eq s addr l h
  obtain ⟨q, hf⟩ := find_holds_some hheld
  rw [hf] at heq
  obtain ⟨l1, l2, hl, hbefore, hq0⟩ := first_of_find hf
  have hq : q ∈ l := List.mem_of_find?_eq_some hf
  exact ⟨q, _, l1, l2, heq, hl, hbefore, hq0, slot_setPtr_self s q 0 _ l h hq,
    fun p hp => slot_setPtr_ne s q 0 _ hp, rfl, nodes_setPtr s q 0 l h,
    fun p => link_setPtr s q 0 _ p, length_setPtr _ _ _⟩

/-- Instance of C15: the address 7 is held by the first and the last node. -/
theorem remove_clears_first_holder_witness :
    nodes { mem := [{ ptr := 7, next := 0 }, { ptr := 5, next := 1 }, { ptr := 7, next := 2 }],
            head := 3 } = some [3, 2, 1] ∧
    (∃ p, p ∈ [3, 2, 1] ∧
      slot { mem := [{ ptr := 7, next := 0 }, { ptr := 5, next := 1 }, { ptr := 7, next := 2 }],
             head := 3 } p = some 7) ∧
    ∃ q s1 l1 l2,
      list_remove
        { mem := [{ ptr := 7, next := 0 }, { ptr := 5, next := 1 }, { ptr := 7, next := 2 }],
          head := 3 } 7 = some (true, s1) ∧
      [3, 2, 1] = l1 ++ q :: l2 ∧
      (∀ p ∈ l1,
        slot { mem := [{ ptr := 7, next := 0 }, { ptr := 5, next := 1 }, { ptr := 7, next := 2 }],
               head := 3 } p ≠ some 7) ∧
      slot { mem := [{ ptr := 7, next := 0 }, { ptr := 5, next := 1 }, { ptr := 7, next := 2 }],
             head := 3 } q = some 7 ∧
      slot s1 q = some 0 ∧
      (∀ p, p ≠ q →
        slot s1 p =
          slot { mem := [{ ptr := 7, next := 0 }, { ptr := 5, next := 1 },
                         { ptr := 7, next := 2 }], head := 3 } p) ∧
      s1.head = 3 ∧ nodes s1 = some [3, 2, 1] ∧
      (∀ p,
        link s1 p =
          link { mem := [{ ptr := 7, next := 0 }, { ptr := 5, next := 1 },
                         { ptr := 7, next := 2 }], head := 3 } p) ∧
      s1.mem.length = 3 :=
  ⟨by decide, ⟨3, by decide, by decide⟩,
    remove_clears_first_holder _ 7 [3, 2, 1] (by decide) ⟨3, by decide, by decide⟩⟩

/-- C16: on every registry whose `next` links form a finite chain `l` from
`head`, `list_free(head)` terminates, and the sequence of nodes it passes to
`free` is exactly `l`, in list order; no node occurs in it twice. -/
theorem list_free_releases_chain (s : Registry) (l : List Nat) (h : nodes s = some l) :
    list_free s = some l ∧ l.Nodup := by
  have hc := (nodes_eq_some_iff s l).1 h
  refine ⟨?_, isChain_nodup _ _ _ hc⟩
  have := free_loop_eq s.mem l s.mem.length s.head [] hc (fun _ _ => List.not_mem_nil _)
    (isChain_length_le _ _ _ hc)
  simpa [list_free] using this

/-- Instance of C16: a registry of three nodes. -/
theorem list_free_releases_chain_witness :
    nodes { mem := [{ ptr := 7, next := 0 }, { ptr := 0, next := 1 }, { ptr := 7, next := 2 }],
            head := 3 } = some [3, 2, 1] ∧
    list_free { mem := [{ ptr := 7, next := 0 }, { ptr := 0, next := 1 }, { ptr := 7, next := 2 }],
                head := 3 } = some [3, 2, 1] ∧
    [3, 2, 1].Nodup :=
  ⟨by decide, list_free_releases_chain _ [3, 2, 1] (by decide)⟩

/-- C17: on every registry with a node chain and for every non-zero address
`a` and every address `b` (equal to `a` or not, zero or not), the calls
`list_insert_or_append(head, a)` and then `list_insert_or_append(head, b)`
return, and when both results are nodes (not `NULL`) they are distinct nodes
and the first one still holds `a` after the second call. -/
theorem consecutive_inserts_distinct (s : Registry) (a b : Nat) (ok1 ok2 : Bool)
    (l : List Nat) (h : nodes s = some l) (ha : a ≠ 0) :
    ∃ n1 s1 n2 s2, list_insert_or_append s a ok1 = some (n1, s1) ∧
      list_insert_or_append s1 b ok2 = some (n2, s2) ∧
      (n1 ≠ 0 → n2 ≠ 0 → n1 ≠ n2 ∧ slot s2 n1 = some a) := by
  obtain ⟨n1, s1, hins1, hcase1⟩ := insert_cases s a ok1 l h
  have key : ∀ l1, nodes s1 = some l1 → n1 ∈ l1 → slot s1 n1 = some a →
      ∃ n2 s2, list_insert_or_append s1 b ok2 = some (n2, s2) ∧
        (n2 ≠ 0 → n1 ≠ n2 ∧ slot s2 n1 = some a) := by
    intro l1 hl1 hn1 hs1
    obtain ⟨n2, s2, hins2, hcase2⟩ := insert_cases s1 b ok2 l1 hl1
    refine ⟨n2, s2, hins2, fun hn2 => ?_⟩
    rcases hcase2 with ⟨_, hfree, _, _, _, _, hoth, _⟩ | ⟨_, _, _, hfresh, _, _, _, _, _, hold⟩ |
      ⟨_, _, h0, _⟩
    · have hne : n1 ≠ n2 := by
        rintro rfl
        rw [hs1] at hfree
        exact ha (Option.some.inj hfree)
      exact ⟨hne, by rw [hoth n1 hne]; exact hs1⟩
    · have hne : n1 ≠ n2 := by
        rintro rfl
        exact hfresh hn1
      exact ⟨hne, by rw [(hold n1 hn1).1]; exact hs1⟩
    · exact absurd h0 hn2
  rcases hcase1 with ⟨hn, _, hl1, _, _, hs, _, _⟩ | ⟨_, _, _, _, hl1, _, _, hs, _, _⟩ |
    ⟨_, _, h0, hs1⟩
  · obtain ⟨n2, s2, hins2, hprop⟩ := key l hl1 hn hs
    exact ⟨n1, s1, n2, s2, hins1, hins2, fun _ hn2 => hprop hn2⟩
  · obtain ⟨n2, s2, hins2, hprop⟩ := key (n1 :: l) hl1 (List.mem_cons_self _ _) hs
    exact ⟨n1, s1, n2, s2, hins1, hins2, fun _ hn2 => hprop hn2⟩
  · subst hs1
    obtain ⟨n2, s2, hins2, _⟩ := insert_cases s1 b ok2 l h
    exact ⟨n1, s1, n2, s2, hins1, hins2, fun hn1 => absurd h0 hn1⟩

/-- Instance of C17: the same address inserted twice into a registry with one
free node. -/
theorem consecutive_inserts_distinct_witness :
    nodes { mem := [{ ptr := 0, next := 0 }, { ptr := 6, next := 1 }], head := 2 }
      = some [2, 1] ∧
    (9 : Nat) ≠ 0 ∧
    ∃ n1 s1 n2 s2,
      list_insert_or_append
        { mem := [{ ptr := 0, next := 0 }, { ptr := 6, next := 1 }], head := 2 } 9 true
        = some (n1, s1) ∧
      list_insert_or_append s1 9 true = some (n2, s2) ∧
      (n1 ≠ 0 → n2 ≠ 0 → n1 ≠ n2 ∧ slot s2 n1 = some 9) :=
  ⟨by decide, by decide,
    consecutive_inserts_distinct _ 9 9 true true [2, 1] (by decide) (by decide)⟩

/-- C18: for every sequence of whole calls run one after the other from the
empty registry, in which every insert has a non-zero address and a successful
allocation, the run returns and the number of nodes of the final chain equals
the largest number of simultaneously occupied slots over the states the run
went through.  Moreover, from any registry with a node chain, a call that
changes the number of nodes is an insert with a successful allocation, issued
when no node of the chain has a free slot, and it adds exactly one node. -/
theorem length_eq_peak (cs : List Call)
    (hins : ∀ a ok, Call.insert a ok ∈ cs → a ≠ 0 ∧ ok = true) :
    (∃ s l m, run empty cs = some s ∧ nodes s = some l ∧ peak empty cs = some m ∧
      l.length = m) ∧
    (∀ (s s1 : Registry) (c : Call) (l l1 : List Nat), nodes s = some l →
      exec s c = some s1 → nodes s1 = some l1 → l1.length ≠ l.length →
      (∃ a, c = Call.insert a true) ∧ (∀ p ∈ l, slot s p ≠ some 0) ∧
        l1.length = l.length + 1) := by
  constructor
  · obtain ⟨s, l, m, hrun, hl, hpk, hlen⟩ := peak_run cs empty [] (by decide) hins
    exact ⟨s, l, m, hrun, hl, hpk, by simpa using hlen⟩
  · intro s s1 c l l1 h hex hl1 hne
    obtain ⟨s2, hex2, hcase⟩ := exec_cases s c l h
    rw [hex] at hex2
    cases hex2
    rcases hcase with hsame | ⟨hc, hfull, hpush, _⟩
    · rw [hl1] at hsame
      cases hsame
      exact absurd rfl hne
    · rw [hl1] at hpush
      cases hpush
      exact ⟨hc, hfull, by simp⟩

/-- Instance of C18: the occupancy reaches 2, drops to 1 and comes back to 2. -/
theorem length_eq_peak_witness :
    (∀ a ok,
      Call.insert a ok ∈
        [Call.insert 5 true, Call.insert 6 true, Call.remove 5, Call.insert 7 true] →
      a ≠ 0 ∧ ok = true) ∧
    ((∃ s l m,
        run empty [Call.insert 5 true, Call.insert 6 true, Call.remove 5, Call.insert 7 true]
          = some s ∧
        nodes s = some l ∧
        peak empty [Call.insert 5 true, Call.insert 6 true, Call.remove 5, Call.insert 7 true]
          = some m ∧
        l.length = m) ∧
     (∀ (s s1 : Registry) (c : Call) (l l1 : List Nat), nodes s = some l →
        exec s c = some s1 → nodes s1 = some l1 → l1.length ≠ l.length →
        (∃ a, c = Call.insert a true) ∧ (∀ p ∈ l, slot s p ≠ some 0) ∧
          l1.length = l.length + 1)) :=
  ⟨by simp, length_eq_peak _ (by simp)⟩

/-- C19: on every registry with node chain `l` and every address `addr` held
by no node of `l` (non-zero or not), `list_insert_or_append(head, addr)`
returns, and when it returns a node `n` the `list_remove(head, addr)` that
follows returns true and clears exactly `n`; every node of `l` then has the
slot it had before the insert.  The final state is the original state when the
original had a free slot, and otherwise the original state extended with the
single node `n`, with slot 0, linked in front of the old head. -/
theorem insert_remove_round_trip (s : Registry) (addr : Nat) (ok : Bool) (l : List Nat)
    (h : nodes s = some l) (hnot : ∀ p ∈ l, slot s p ≠ some addr) :
    ∃ n s1, list_insert_or_append s addr ok = some (n, s1) ∧
      (n ≠ 0 → ∃ s2, list_remove s1 addr = some (true, s2) ∧
        slot s1 n = some addr ∧ slot s2 n = some 0 ∧
        (∀ p, p ≠ n → slot s2 p = slot s1 p) ∧
        (∀ p ∈ l, slot s2 p = slot s p) ∧
        (((∃ p, p ∈ l ∧ slot s p = some 0) ∧ s2 = s) ∨
         ((∀ p ∈ l, slot s p ≠ some 0) ∧ n = s.mem.length + 1 ∧
            s2 = { mem := s.mem ++ [{ ptr := 0, next := s.head }], head := n }))) := by
  have heq := list_insert_or_append_eq s addr ok l h
  cases hf : l.find? (holds s.mem 0) with
  | some q =>
    rw [hf] at heq
    have hq : q ∈ l := List.mem_of_find?_eq_some hf
    have hq0 : slot s q = some 0 := (holds_iff s 0 q).1 (List.find?_some hf)
    have hl1 := nodes_setPtr s q addr l h
    have hsq : slot { mem := setPtr s.mem q addr, head := s.head } q = some addr :=
      slot_setPtr_self s q addr _ l h hq
    refine ⟨_, _, heq, fun _ => ?_⟩
    have hrem := list_remove_eq { mem := setPtr s.mem q addr, head := s.head } addr l hl1
    obtain ⟨r, hr⟩ := find_holds_some ⟨q, hq, hsq⟩
    have hrq : r = q := by
      by_contra hne
      have h1 := (holds_iff _ addr r).1 (List.find?_some hr)
      rw [slot_setPtr_ne s q addr _ hne] at h1
      exact hnot r (List.mem_of_find?_eq_some hr) h1
    subst hrq
    simp only at hr
    rw [hr] at hrem
    have hmem : setPtr (setPtr s.mem r addr) r 0 = s.mem := by
      rw [setPtr_setPtr]
      exact setPtr_same hq0
    simp only [hmem] at hrem
    refine ⟨s, hrem, hsq, hq0, ?_, fun p _ => rfl, Or.inl ⟨⟨r, hq, hq0⟩, rfl⟩⟩
    intro p hp
    exact (slot_setPtr_ne s r addr _ hp).symm
  | none =>
    rw [hf] at heq
    cases ok with
    | false => exact ⟨_, _, heq, fun hn => absurd rfl hn⟩
    | true =>
      refine ⟨_, _, heq, fun _ => ?_⟩
      have hl1 := nodes_push s addr l h
      have hrem := list_remove_eq
        { mem := s.mem ++ [{ ptr := addr, next := s.head }], head := s.mem.length + 1 }
        addr _ hl1
      have hnew : holds (s.mem ++ [{ ptr := addr, next := s.head }]) addr (s.mem.length + 1)
          = true := by
        simp [holds, atomic_load_ptr, deref_append_new]
      simp only [List.find?_cons, hnew] at hrem
      have hmem : setPtr (s.mem ++ [{ ptr := addr, next := s.head }]) (s.mem.length + 1) 0
          = s.mem ++ [{ ptr := 0, next := s.head }] := by
        simp [setPtr, deref_append_new]
      rw [hmem] at hrem
      refine ⟨_, hrem, ?_, ?_, ?_, ?_, Or.inr ⟨find_holds_none hf, rfl, rfl⟩⟩
      · simp [slot, atomic_load_ptr, deref_append_new]
      · simp [slot, atomic_load_ptr, deref_append_new]
      · intro p hp
        simp [slot, atomic_load_ptr, deref_append_other _ _ hp]
      · intro p hp
        exact slot_push_old s _ _ l h hp

/-- Instance of C19: a full one-node registry, so that the insert allocates. -/
theorem insert_remove_round_trip_witness :
    nodes { mem := [{ ptr := 7, next := 0 }], head := 1 } = some [1] ∧
    (∀ p ∈ [1], slot { mem := [{ ptr := 7, next := 0 }], head := 1 } p ≠ some 9) ∧
    ∃ n s1,
      list_insert_or_append { mem := [{ ptr := 7, next := 0 }], head := 1 } 9 true
        = some (n, s1) ∧
      (n ≠ 0 → ∃ s2, list_remove s1 9 = some (true, s2) ∧
        slot s1 n = some 9 ∧ slot s2 n = some 0 ∧
        (∀ p, p ≠ n → slot s2 p = slot s1 p) ∧
        (∀ p ∈ [1], slot s2 p = slot { mem := [{ ptr := 7, next := 0 }], head := 1 } p) ∧
        (((∃ p, p ∈ [1] ∧ slot { mem := [{ ptr := 7, next := 0 }], head := 1 } p = some 0) ∧
            s2 = { mem := [{ ptr := 7, next := 0 }], head := 1 }) ∨
         ((∀ p ∈ [1], slot { mem := [{ ptr := 7, next := 0 }], head := 1 } p ≠ some 0) ∧
            n = [({ ptr := 7, next := 0 } : hp_t)].length + 1 ∧
            s2 = { mem := [{ ptr := 7, next := 0 }] ++ [{ ptr := 0, next := 1 }],
                   head := n }))) :=
  ⟨by decide, by decide, insert_remove_round_trip _ 9 true [1] (by decide) (by decide)⟩

/-- C20: on every registry with node chain `l`, `list_contains(head, 0)` and
`list_remove(head, 0)` both return, each returns true exactly when some node of
`l` has slot 0, and the state after `list_remove(head, 0)` is the state before
it (every slot, every link and `head`), also when it returns true. -/
theorem zero_is_free_slot (s : Registry) (l : List Nat) (h : nodes s = some l) :
    ∃ b c, list_contains s 0 = some (b, s) ∧ list_remove s 0 = some (c, s) ∧
      (b = true ↔ ∃ p, p ∈ l ∧ slot s p = some 0) ∧
      (c = true ↔ ∃ p, p ∈ l ∧ slot s p = some 0) := by
  obtain ⟨b, hb, hiff⟩ := contains_cases s 0 l h
  have hrem := list_remove_eq s 0 l h
  cases hf : l.find? (holds s.mem 0) with
  | some q =>
    rw [hf] at hrem
    have hq0 : slot s q = some 0 := (holds_iff s 0 q).1 (List.find?_some hf)
    have hmem : setPtr s.mem q 0 = s.mem := setPtr_same hq0
    simp only [hmem] at hrem
    exact ⟨b, true, hb, hrem, hiff,
      ⟨fun _ => ⟨q, List.mem_of_find?_eq_some hf, hq0⟩, fun _ => rfl⟩⟩
  | none =>
    rw [hf] at hrem
    refine ⟨b, false, hb, hrem, hiff, ⟨fun hc => (by cases hc), ?_⟩⟩
    rintro ⟨p, hp, hs⟩
    exact absurd hs (find_holds_none hf p hp)

/-- Instance of C20: a registry with one free and one occupied node. -/
theorem zero_is_free_slot_witness :
    nodes { mem := [{ ptr := 0, next := 0 }, { ptr := 6, next := 1 }], head := 2 }
      = some [2, 1] ∧
    ∃ b c,
      list_contains { mem := [{ ptr := 0, next := 0 }, { ptr := 6, next := 1 }], head := 2 } 0
        = some (b, { mem := [{ ptr := 0, next := 0 }, { ptr := 6, next := 1 }], head := 2 }) ∧
      list_remove { mem := [{ ptr := 0, next := 0 }, { ptr := 6, next := 1 }], head := 2 } 0
        = some (c, { mem := [{ ptr := 0, next := 0 }, { ptr := 6, next := 1 }], head := 2 }) ∧
      (b = true ↔ ∃ p, p ∈ [2, 1] ∧
        slot { mem := [{ ptr := 0, next := 0 }, { ptr := 6, next := 1 }], head := 2 } p
          = some 0) ∧
      (c = true ↔ ∃ p, p ∈ [2, 1] ∧
        slot { mem := [{ ptr := 0, next := 0 }, { ptr := 6, next := 1 }], head := 2 } p
          = some 0) :=
  ⟨by decide, zero_is_free_slot _ [2, 1] (by decide)⟩

/-! ## Interleaved executions: the record of claims -/

/-- Interleaving in which thread 0 claims the only node, thread 2 removes the
address again and thread 1 then claims the same node: both inserts return node
1 and the record shows the clear between the two claims. -/
theorem schedule_claim_clear_claim :
    schedule (boot { mem := [{ ptr := 0, next := 0 }], head := 1 }
        [Job.insert 5, Job.insert 6, Job.remove 5])
      [(0, true), (0, true), (0, true), (2, true), (2, true), (2, true),
       (1, true), (1, true), (1, true)]
      = some { reg := { mem := [{ ptr := 6, next := 0 }], head := 1 },
               threads := [Thread.i_done 1, Thread.i_done 1, Thread.r_done true],
               log := [Event.claim 1 1, Event.clear 1, Event.claim 0 1] } := by
  decide

/-- Interleaving in which two inserts read the same free slot before either
attempts its compare-and-swap: thread 0 wins, the compare-and-swap of thread 1
fails, and thread 1 goes on to allocate node 2. -/
theorem schedule_race_for_slot :
    schedule (boot { mem := [{ ptr := 0, next := 0 }], head := 1 }
        [Job.insert 5, Job.insert 6])
      [(0, true), (1, true), (0, true), (1, true), (0, true), (1, true),
       (1, true), (1, true), (1, true), (1, true), (1, true), (1, true), (1, true)]
      = some { reg := { mem := [{ ptr := 5, next := 0 }, { ptr := 6, next := 1 }], head := 2 },
               threads := [Thread.i_done 1, Thread.i_done 2],
               log := [Event.claim 1 2, Event.claim 0 1] } := by
  decide

/-- Interleaving in which two inserts on the empty registry both read
`head = NULL` before either publishes: the compare-and-swap on `head` of
thread 1 fails once and is retried with the new head. -/
theorem schedule_race_for_head :
    schedule (boot empty [Job.insert 5, Job.insert 6])
      [(0, true), (1, true), (0, true), (1, true), (0, true), (1, true),
       (0, true), (1, true), (0, true), (1, true), (0, true), (1, true),
       (0, true), (1, true), (1, true), (1, true)]
      = some { reg := { mem := [{ ptr := 5, next := 0 }, { ptr := 6, next := 1 }], head := 2 },
               threads := [Thread.i_done 1, Thread.i_done 2],
               log := [Event.claim 1 2, Event.claim 0 1] } := by
  decide

/-- Schedule in which the three threads run one after the other: the final
registry is the one computed by the whole calls executed in that order. -/
theorem schedule_sequential_agrees :
    (schedule (boot empty [Job.insert 5, Job.insert 6, Job.remove 5])
      [(0, true), (0, true), (0, true), (0, true), (0, true), (0, true), (0, true),
       (1, true), (1, true), (1, true), (1, true), (1, true), (1, true), (1, true),
       (1, true), (1, true),
       (2, true), (2, true), (2, true), (2, true), (2, true), (2, true)]).map Machine.reg
      = run empty [Call.insert 5 true, Call.insert 6 true, Call.remove 5] := by
  decide

end HazardPointer
